import Mathlib

/-!
# Verification of the MAXDP flow-execution subsystem

Shallow embedding of the core of the MAX DP platform
(`max_dp_server/app/utils/maxdp_dag_util.py`,
`app/core/maxdp_flow_executor.py`, `app/core/maxdp_worker_manager.py`,
`app/core/nodes/maxdp_sinks.py`,
`app/api/api_v1/endpoints/maxdp_execute_router.py`) together with proofs
about the embedded definitions.

Python `dict`s are modelled as insertion-ordered association lists with
unique-key update semantics; Python `set` iteration order (which is
hash-dependent and not specified) is modelled by an explicit enumeration
function `π : List String → List String` constrained only to enumerate the
set's elements exactly once.  Machine floats appear only as
`total_execution_time`, to which the code only ever adds the literal
`0.0`, so exact rationals model the arithmetic faithfully.
-/

namespace MaxDP

/-! ## Python dict model

`pySet k v d` is `d[k] = v`: it replaces the value at the first occurrence
of `k`, keeping its position, and appends `(k, v)` otherwise.
`pyLookup` is `d.get(k)`.  `pyUpdate d g` is `d.update(g)`. -/

def pySet {V : Type} (k : String) (v : V) : List (String × V) → List (String × V)
  | [] => [(k, v)]
  | (k', v') :: rest => if k' = k then (k, v) :: rest else (k', v') :: pySet k v rest

def pyLookup {V : Type} (k : String) : List (String × V) → Option V
  | [] => none
  | (k', v') :: rest => if k' = k then some v' else pyLookup k rest

def pyUpdate {V : Type} (d g : List (String × V)) : List (String × V) :=
  g.foldl (fun acc kv => pySet kv.1 kv.2 acc) d

theorem pyLookup_pySet {V : Type} (k k' : String) (v : V) (d : List (String × V)) :
    pyLookup k (pySet k' v d) = if k' = k then some v else pyLookup k d := by
  induction d with
  | nil =>
    by_cases h : k' = k <;> simp [pySet, pyLookup, h]
  | cons hd tl ih =>
    obtain ⟨k₀, v₀⟩ := hd
    by_cases h0 : k₀ = k'
    · subst h0
      by_cases h : k₀ = k <;> simp [pySet, pyLookup, h]
    · by_cases h : k₀ = k
      · subst h
        have hne : ¬ k' = k₀ := fun he => h0 he.symm
        simp [pySet, pyLookup, h0, hne]
      · simp [pySet, pyLookup, h0, h, ih]

theorem pyLookup_none_of_not_mem_keys {V : Type} (k : String) (g : List (String × V))
    (h : k ∉ g.map Prod.fst) : pyLookup k g = none := by
  induction g with
  | nil => rfl
  | cons hd tl ih =>
    obtain ⟨k₀, v₀⟩ := hd
    simp only [List.map_cons, List.mem_cons] at h
    push_neg at h
    have : ¬ k₀ = k := fun he => h.1 he.symm
    simp [pyLookup, this, ih h.2]

theorem pyLookup_pyUpdate {V : Type} (k : String) (d g : List (String × V))
    (hg : (g.map Prod.fst).Nodup) :
    pyLookup k (pyUpdate d g) =
      ((pyLookup k g).rec (pyLookup k d) (fun v => some v) : Option V) := by
  induction g generalizing d with
  | nil => simp [pyUpdate, pyLookup]
  | cons hd tl ih =>
    obtain ⟨k₀, v₀⟩ := hd
    simp only [List.map_cons, List.nodup_cons] at hg
    have hstep : pyUpdate d ((k₀, v₀) :: tl) = pyUpdate (pySet k₀ v₀ d) tl := rfl
    rw [hstep, ih _ hg.2]
    by_cases h : k₀ = k
    · subst h
      have htl : pyLookup k₀ tl = none := pyLookup_none_of_not_mem_keys _ _ hg.1
      simp [pyLookup, pyLookup_pySet, htl]
    · cases htl : pyLookup k tl <;>
        simp [pyLookup, h, pyLookup_pySet, htl]

/-! ## Flow definitions (`maxdp_dag_util.py`)

A node dict contributes its `id` (and, for the executor, its `type`);
an edge dict contributes `source`, `target` and the optional handles.
Flows whose node dicts lack an `id` key or whose edge dicts lack
`source`/`target` are rejected by the source before any of the verified
behaviour is reached, so the embedding represents only well-keyed dicts. -/

structure PNode where
  id : String
  ntype : String
deriving DecidableEq

structure PEdge where
  source : String
  target : String
  sourceHandle : Option String
  targetHandle : Option String
deriving DecidableEq

/-- Edge relation of a flow: `u ⟶ v` iff some edge has source `u` and target `v`. -/
def edgeRel (edges : List PEdge) (u v : String) : Prop :=
  ∃ e ∈ edges, e.source = u ∧ e.target = v

instance (edges : List PEdge) (u v : String) : Decidable (edgeRel edges u v) :=
  List.decidableBEx _ edges

/-- The graph is acyclic: no node reaches itself through one or more edges. -/
def Acyclic (edges : List PEdge) : Prop :=
  ∀ v, ¬ Relation.TransGen (edgeRel edges) v v

/-- `π` behaves like iterating a Python `set`: it lists each element of the
underlying collection exactly once, in some unspecified order. -/
def SetEnum (π : List String → List String) : Prop :=
  ∀ l, (π l).Nodup ∧ ∀ x, x ∈ π l ↔ x ∈ l

/-- Adjacency list built by the edge loop of `topological_sort`
(`graph[source_id].append(target_id)`): the targets of `u`, in edge order. -/
def adj (edges : List PEdge) (u : String) : List String :=
  (edges.filter (fun e => decide (e.source = u))).map PEdge.target

/-- Initial in-degree (`in_degree[target_id] += 1` over all edges). -/
def indeg0 (edges : List PEdge) (v : String) : Int :=
  ((edges.filter (fun e => decide (e.target = v))).length : Int)

inductive TopoError
  | validationError (msg : String)
  | cycleError (path : List String)
deriving DecidableEq

instance {ε α : Type} [DecidableEq ε] [DecidableEq α] : DecidableEq (Except ε α)
  | .error a, .error b => decidable_of_iff (a = b) (by simp)
  | .error _, .ok _ => isFalse (by simp)
  | .ok _, .error _ => isFalse (by simp)
  | .ok a, .ok b => decidable_of_iff (a = b) (by simp)

/-- The edge loop of `topological_sort`: the first edge whose `source` or
`target` is not a declared node id raises `DAGValidationError`. -/
def checkEdges (ids : List String) : List PEdge → Option TopoError
  | [] => none
  | e :: es =>
    if e.source ∈ ids then
      if e.target ∈ ids then checkEdges ids es
      else some (.validationError ("Edge references non-existent target node: " ++ e.target))
    else some (.validationError ("Edge references non-existent source node: " ++ e.source))

/-- Inner loop of Kahn's algorithm: for each neighbor of the popped node
(in adjacency order) decrement its in-degree and enqueue it when the
decremented value is exactly `0`. -/
def processNeighbors : List String → (String → Int) → List String →
    ((String → Int) × List String)
  | [], inDeg, queue => (inDeg, queue)
  | t :: ts, inDeg, queue =>
    let d := inDeg t - 1
    processNeighbors ts (Function.update inDeg t d) (if d = 0 then queue ++ [t] else queue)

/-- The `while queue:` loop of Kahn's algorithm.  The source loop is
unbounded; `fuel` is a bound on the number of iterations, and
`kahnLoop_queue_eq_nil` below shows `|ids|` iterations always drain the
queue, so the fuelled loop computes the same result as the source. -/
def kahnLoop (g : String → List String) :
    Nat → List String → List String → (String → Int) →
    (List String × List String × (String → Int))
  | 0, result, queue, inDeg => (result, queue, inDeg)
  | fuel + 1, result, queue, inDeg =>
    match queue with
    | [] => (result, [], inDeg)
    | q :: qs =>
      let p := processNeighbors (g q) inDeg qs
      kahnLoop g fuel (result ++ [q]) p.2 p.1

/- One DFS call of `_find_cycle`.  `rec_stack` always holds exactly the
elements of `path` (both are extended and restored in lockstep in the
source), so the `node in rec_stack` test is modelled as `node ∈ path`.
`dfsVisit` returns the found cycle (or `[]`) and the updated shared
`visited` list; `dfsFold` is the `for neighbor in graph.get(node, [])`
loop. -/
mutual

def dfsVisit (g : String → List String) (rem : List String) :
    Nat → String → List String → List String → (List String × List String)
  | 0, _, _, visited => ([], visited)
  | fuel + 1, node, path, visited =>
    if node ∈ path then
      (path.drop (path.indexOf node) ++ [node], visited)
    else if node ∈ visited then ([], visited)
    else dfsFold g rem fuel (g node) (path ++ [node]) (visited ++ [node])
termination_by fuel _ _ _ => (fuel, 0)

def dfsFold (g : String → List String) (rem : List String) :
    Nat → List String → List String → List String → (List String × List String)
  | _, [], _, visited => ([], visited)
  | fuel, n :: ns, path, visited =>
    if n ∈ rem then
      let r := dfsVisit g rem fuel n path visited
      if r.1 ≠ [] then r else dfsFold g rem fuel ns path r.2
    else dfsFold g rem fuel ns path visited
termination_by fuel ns _ _ => (fuel, ns.length + 1)

end

/-- Outer loop of `_find_cycle`: DFS from each not-yet-visited remaining
node (in set-iteration order), sharing `visited` across starts; when no
start finds a cycle, fall back to `list(remaining_nodes)`. -/
def findCycleLoop (g : String → List String) (rem : List String) :
    List String → List String → List String
  | [], _ => []
  | n :: ns, visited =>
    if n ∈ visited then findCycleLoop g rem ns visited
    else
      let r := dfsVisit g rem (rem.length + 1) n [] visited
      if r.1 ≠ [] then r.1 else findCycleLoop g rem ns r.2

def find_cycle (g : String → List String) (rem : List String) : List String :=
  match findCycleLoop g rem rem [] with
  | [] => rem
  | cyc => cyc

/-- `topological_sort(nodes, edges)` from `maxdp_dag_util.py`, with the
iteration order of Python string sets supplied as `π` (the source iterates
the set `node_ids` to seed the queue and the set `remaining_nodes` in
`_find_cycle`; both orders are hash-dependent). -/
def topological_sort (π : List String → List String)
    (nodes : List PNode) (edges : List PEdge) : Except TopoError (List String) :=
  let ids := nodes.map PNode.id
  if ids.Nodup then
    match checkEdges ids edges with
    | some err => .error err
    | none =>
      let seed := (π ids).filter (fun v => decide (indeg0 edges v = 0))
      let final := kahnLoop (adj edges) ids.length [] seed (indeg0 edges)
      if final.1.length = ids.length then .ok final.1
      else
        let rem := π (ids.filter (fun v => decide (v ∉ final.1)))
        .error (.cycleError (find_cycle (adj edges) rem))
  else .error (.validationError "Duplicate node ID")

/-! ## Correctness of the embedded Kahn loop -/

theorem processNeighbors_fst (ts : List String) (inDeg : String → Int)
    (queue : List String) (v : String) :
    (processNeighbors ts inDeg queue).1 v = inDeg v - (ts.count v : Int) := by
  induction ts generalizing inDeg queue with
  | nil => simp [processNeighbors]
  | cons t ts ih =>
    simp only [processNeighbors]
    rw [ih]
    by_cases h : t = v
    · subst h
      simp [Function.update_apply, List.count_cons]
      ring
    · have hvt : ¬ v = t := fun he => h he.symm
      simp [Function.update_apply, hvt, List.count_cons, h]

theorem processNeighbors_snd (ts : List String) (inDeg : String → Int)
    (queue : List String) :
    ∃ extra, (processNeighbors ts inDeg queue).2 = queue ++ extra ∧ extra.Nodup ∧
      ∀ v, v ∈ extra ↔ (1 ≤ inDeg v ∧ inDeg v ≤ (ts.count v : Int)) := by
  induction ts generalizing inDeg queue with
  | nil =>
    refine ⟨[], by simp [processNeighbors], by simp, fun v => ?_⟩
    simp only [List.count_nil, List.not_mem_nil, false_iff, not_and, Nat.cast_zero]
    omega
  | cons t ts ih =>
    simp only [processNeighbors]
    by_cases hd : inDeg t - 1 = 0
    · obtain ⟨extra, heq, hnodup, hmem⟩ :=
        ih (Function.update inDeg t (inDeg t - 1)) (queue ++ [t])
      have htx : t ∉ extra := by
        intro hx
        have hm := (hmem t).1 hx
        rw [Function.update_apply, if_pos rfl] at hm
        omega
      refine ⟨t :: extra, ?_, List.nodup_cons.2 ⟨htx, hnodup⟩, fun v => ?_⟩
      · rw [if_pos hd, heq]
        simp
      · rcases eq_or_ne v t with hv | hv
        · have hbeq : (t == v) = true := beq_iff_eq.2 hv.symm
          have h1 : inDeg v = 1 := by rw [hv]; omega
          refine iff_of_true (by simp [hv]) ⟨by omega, ?_⟩
          rw [List.count_cons, hbeq, if_pos rfl, h1]
          push_cast
          omega
        · have hvt : (t == v) = false := beq_eq_false_iff_ne.2 fun he => hv he.symm
          simp only [List.mem_cons, hv, false_or, hmem v, Function.update_apply,
            if_neg hv, List.count_cons, hvt]
          simp
    · obtain ⟨extra, heq, hnodup, hmem⟩ :=
        ih (Function.update inDeg t (inDeg t - 1)) queue
      refine ⟨extra, ?_, hnodup, fun v => ?_⟩
      · rw [if_neg hd]
        exact heq
      · rw [hmem v, Function.update_apply]
        rcases eq_or_ne v t with hv | hv
        · have hbeq : (t == v) = true := beq_iff_eq.2 hv.symm
          rw [hv]
          simp only [if_pos rfl, List.count_cons, beq_self_eq_true, if_true]
          push_cast
          omega
        · have hvt : (t == v) = false := beq_eq_false_iff_ne.2 fun he => hv he.symm
          simp only [if_neg hv, List.count_cons, hvt]
          simp

theorem count_adj (edges : List PEdge) (q v : String) :
    (adj edges q).count v =
      (edges.filter (fun e => decide (e.source = q ∧ e.target = v))).length := by
  induction edges with
  | nil => rfl
  | cons e es ih =>
    simp only [adj, List.filter_cons] at *
    by_cases h1 : e.source = q
    · by_cases h2 : e.target = v
      · simp [h1, h2, List.count_cons, ih]
      · have : (e.target == v) = false := beq_eq_false_iff_ne.2 h2
        simp [h1, h2, List.count_cons, this, ih]
    · simp [h1, ih]

theorem remDeg_step (edges : List PEdge) (result : List String) (q v : String)
    (hq : q ∉ result) :
    ((edges.filter (fun e => decide (e.target = v ∧ e.source ∉ result))).length : Int)
      - ((edges.filter (fun e => decide (e.source = q ∧ e.target = v))).length : Int)
    = ((edges.filter
        (fun e => decide (e.target = v ∧ e.source ∉ result ++ [q]))).length : Int) := by
  induction edges with
  | nil => simp
  | cons e es ih =>
    simp only [List.filter_cons]
    by_cases h1 : e.target = v
    · by_cases h2 : e.source = q
      · have h3 : e.source ∉ result := h2 ▸ hq
        have h4 : e.source ∈ result ++ [q] := by simp [h2]
        rw [if_pos (by simp [h1, h3]), if_pos (by simp [h1, h2]),
          if_neg (by simp [h1, h4])]
        simp only [List.length_cons]
        push_cast
        omega
      · by_cases h3 : e.source ∈ result
        · have h4 : e.source ∈ result ++ [q] := by simp [h3]
          rw [if_neg (by simp [h3]), if_neg (by simp [h2]), if_neg (by simp [h4])]
          exact ih
        · have h4 : e.source ∉ result ++ [q] := by simp [h2, h3]
          rw [if_pos (by simp [h1, h3]), if_neg (by simp [h2]),
            if_pos (by simp [h1, h2, h3])]
          simp only [List.length_cons]
          push_cast
          omega
    · rw [if_neg (by simp [h1]), if_neg (by simp [h1]), if_neg (by simp [h1])]
      exact ih

/-- Number of in-edges of `v` whose source has not yet been appended to
`result`; the loop keeps `in_degree` equal to this quantity. -/
def remDeg (edges : List PEdge) (result : List String) (v : String) : Int :=
  ((edges.filter (fun e => decide (e.target = v ∧ e.source ∉ result))).length : Int)

theorem count_adj_le (edges : List PEdge) (result : List String) (q v : String)
    (hq : q ∉ result) :
    (((adj edges q).count v : Int)) ≤ remDeg edges result v := by
  rw [count_adj, remDeg]
  have hsub : List.Sublist
      (edges.filter (fun e => decide (e.source = q ∧ e.target = v)))
      (edges.filter (fun e => decide (e.target = v ∧ e.source ∉ result))) := by
    apply List.monotone_filter_right
    intro e he
    simp only [decide_eq_true_eq] at he ⊢
    exact ⟨he.2, he.1 ▸ hq⟩
  exact_mod_cast hsub.length_le

theorem count_adj_eq_zero (edges : List PEdge) (result : List String) (q v : String)
    (hq : q ∉ result) (h0 : remDeg edges result v = 0) :
    ((adj edges q).count v : Int) = 0 := by
  have hle := count_adj_le edges result q v hq
  have hge : (0 : Int) ≤ ((adj edges q).count v : Int) := by positivity
  omega

/-- Loop invariant of the embedded Kahn loop, for validated inputs. -/
structure KahnInv (edges : List PEdge) (ids : List String)
    (result queue : List String) (inDeg : String → Int) : Prop where
  nodup : (result ++ queue).Nodup
  mem_ids : ∀ v ∈ result ++ queue, v ∈ ids
  deg : ∀ v, inDeg v = remDeg edges result v
  reached_zero : ∀ v ∈ result ++ queue, inDeg v = 0
  unreached : ∀ v ∈ ids, v ∉ result ++ queue → inDeg v ≠ 0
  order : ∀ e ∈ edges, e.target ∈ result →
    e.source ∈ result ∧ result.indexOf e.source < result.indexOf e.target

theorem kahnInv_step (edges : List PEdge) (ids : List String)
    (hedges : ∀ e ∈ edges, e.source ∈ ids ∧ e.target ∈ ids)
    (result qs : List String) (q : String) (inDeg : String → Int)
    (inv : KahnInv edges ids result (q :: qs) inDeg) :
    KahnInv edges ids (result ++ [q])
      (processNeighbors (adj edges q) inDeg qs).2
      (processNeighbors (adj edges q) inDeg qs).1 := by
  have hqmem : q ∈ result ++ q :: qs := by simp
  have hq0 : inDeg q = 0 := inv.reached_zero q hqmem
  have hqres : q ∉ result := by
    intro h
    have := inv.nodup
    rw [List.nodup_append] at this
    exact this.2.2 h (by simp)
  obtain ⟨extra, heq, hexnodup, hexmem⟩ := processNeighbors_snd (adj edges q) inDeg qs
  -- the new in-degree function
  have hdeg' : ∀ v, (processNeighbors (adj edges q) inDeg qs).1 v =
      remDeg edges (result ++ [q]) v := by
    intro v
    rw [processNeighbors_fst, inv.deg v, remDeg, remDeg, ← remDeg_step edges result q v hqres,
      count_adj]
  -- members of `extra` had strictly positive in-degree, hence are new
  have hex_pos : ∀ v ∈ extra, 1 ≤ inDeg v := fun v hv => ((hexmem v).1 hv).1
  have hex_new : ∀ v ∈ extra, v ∉ result ++ q :: qs := by
    intro v hv hmem
    have := inv.reached_zero v hmem
    have := hex_pos v hv
    omega
  have hex_ids : ∀ v ∈ extra, v ∈ ids := by
    intro v hv
    have hcnt := ((hexmem v).1 hv).2
    have h1 := hex_pos v hv
    have : 1 ≤ (adj edges q).count v := by exact_mod_cast by omega
    have hvadj : v ∈ adj edges q := List.count_pos_iff.1 (by omega)
    simp only [adj, List.mem_map, List.mem_filter, decide_eq_true_eq] at hvadj
    obtain ⟨e, ⟨hee, _⟩, het⟩ := hvadj
    exact het ▸ (hedges e hee).2
  -- the old base list `result ++ q :: qs` reassociated
  have hassoc : (result ++ [q]) ++ (qs ++ extra) = (result ++ q :: qs) ++ extra := by
    simp
  refine ⟨?_, ?_, ?_, ?_, ?_, ?_⟩
  · rw [heq, hassoc, List.nodup_append]
    refine ⟨inv.nodup, hexnodup, fun v hv hv' => hex_new v hv' hv⟩
  · intro v hv
    rw [heq, hassoc, List.mem_append] at hv
    rcases hv with hv | hv
    · exact inv.mem_ids v hv
    · exact hex_ids v hv
  · exact hdeg'
  · intro v hv
    rw [heq, hassoc, List.mem_append] at hv
    rcases hv with hv | hv
    · -- previously reached nodes have no in-edges from `q`
      have h0 : inDeg v = 0 := inv.reached_zero v hv
      have hz : ((adj edges q).count v : Int) = 0 :=
        count_adj_eq_zero edges result q v hqres (by rw [← inv.deg v]; exact h0)
      rw [processNeighbors_fst]
      omega
    · -- newly enqueued nodes: in-degree consumed exactly
      obtain ⟨h1, h2⟩ := (hexmem v).1 hv
      have h3 := count_adj_le edges result q v hqres
      rw [← inv.deg v] at h3
      rw [processNeighbors_fst]
      omega
  · intro v hvids hv
    rw [heq, hassoc, List.mem_append] at hv
    push_neg at hv
    have hvold : v ∉ result ++ q :: qs := hv.1
    have hvex : v ∉ extra := hv.2
    have hne : inDeg v ≠ 0 := inv.unreached v hvids hvold
    have hge : 0 ≤ inDeg v := by
      rw [inv.deg v, remDeg]
      positivity
    have hnx : ¬ (1 ≤ inDeg v ∧ inDeg v ≤ ((adj edges q).count v : Int)) :=
      fun hc => hvex ((hexmem v).2 hc)
    rw [processNeighbors_fst]
    omega
  · intro e he htg
    rw [List.mem_append] at htg
    rcases htg with htg | htg
    · obtain ⟨hsrc, hlt⟩ := inv.order e he htg
      refine ⟨List.mem_append_left _ hsrc, ?_⟩
      rw [List.indexOf_append_of_mem hsrc, List.indexOf_append_of_mem htg]
      exact hlt
    · have htq : e.target = q := by simpa using htg
      -- all in-edges of `q` have their source in `result`
      have h0 : remDeg edges result q = 0 := by rw [← inv.deg q]; exact hq0
      have hsrc : e.source ∈ result := by
        by_contra hsrc
        have hmem : e ∈ edges.filter
            (fun e' => decide (e'.target = q ∧ e'.source ∉ result)) := by
          rw [List.mem_filter, decide_eq_true_eq]
          exact ⟨he, htq, hsrc⟩
        rw [remDeg] at h0
        have : 0 < (edges.filter
            (fun e' => decide (e'.target = q ∧ e'.source ∉ result))).length :=
          List.length_pos.2 (List.ne_nil_of_mem hmem)
        omega
      refine ⟨List.mem_append_left _ hsrc, ?_⟩
      rw [List.indexOf_append_of_mem hsrc, htq,
        List.indexOf_append_of_not_mem hqres]
      have := List.indexOf_lt_length.2 hsrc
      simp only [List.indexOf_cons_self, Nat.add_zero]
      omega

theorem kahnInv_init (edges : List PEdge) (ids : List String)
    (π : List String → List String) (hπ : SetEnum π) :
    KahnInv edges ids []
      ((π ids).filter (fun v => decide (indeg0 edges v = 0))) (indeg0 edges) := by
  have hdeg : ∀ v, indeg0 edges v = remDeg edges [] v := by
    intro v
    rw [indeg0, remDeg]
    congr 2
    apply List.filter_congr
    intro e _
    simp
  refine ⟨?_, ?_, hdeg, ?_, ?_, ?_⟩
  · simpa using (hπ ids).1.filter _
  · intro v hv
    simp only [List.nil_append, List.mem_filter] at hv
    exact ((hπ ids).2 v).1 hv.1
  · intro v hv
    simp only [List.nil_append, List.mem_filter, decide_eq_true_eq] at hv
    exact hv.2
  · intro v hvids hv
    simp only [List.nil_append, List.mem_filter, decide_eq_true_eq, not_and] at hv
    exact hv (((hπ ids).2 v).2 hvids)
  · intro e _ htg
    simp at htg

theorem kahnLoop_spec (edges : List PEdge) (ids : List String)
    (_hids : ids.Nodup)
    (hedges : ∀ e ∈ edges, e.source ∈ ids ∧ e.target ∈ ids) :
    ∀ (fuel : Nat) (result queue : List String) (inDeg : String → Int),
      KahnInv edges ids result queue inDeg →
      ids.length ≤ fuel + result.length →
      (kahnLoop (adj edges) fuel result queue inDeg).2.1 = [] ∧
      KahnInv edges ids (kahnLoop (adj edges) fuel result queue inDeg).1 []
        (kahnLoop (adj edges) fuel result queue inDeg).2.2 := by
  intro fuel
  induction fuel with
  | zero =>
    intro result queue inDeg inv hle
    match queue with
    | [] => exact ⟨rfl, inv⟩
    | q :: qs =>
      exfalso
      have hsub := List.subperm_of_subset inv.nodup inv.mem_ids
      have hlen := hsub.length_le
      simp only [List.length_append, List.length_cons] at hlen
      omega
  | succ fuel ih =>
    intro result queue inDeg inv hle
    match queue with
    | [] => exact ⟨rfl, inv⟩
    | q :: qs =>
      have inv' := kahnInv_step edges ids hedges result qs q inDeg inv
      have hle' : ids.length ≤ fuel + (result ++ [q]).length := by
        simp only [List.length_append, List.length_singleton]
        omega
      exact ih (result ++ [q]) _ _ inv' hle'

/-- Pigeonhole: in a finite nonempty set in which every element has a
predecessor inside the set, some element lies on a cycle. -/
theorem cycle_of_preds {r : String → String → Prop} (R : List String) (hne : R ≠ [])
    (h : ∀ v ∈ R, ∃ u ∈ R, r u v) : ∃ v ∈ R, Relation.TransGen r v v := by
  classical
  have hf : ∀ v : {x // x ∈ R}, ∃ u : {x // x ∈ R}, r u.1 v.1 := by
    rintro ⟨v, hv⟩
    obtain ⟨u, hu, hr⟩ := h v hv
    exact ⟨⟨u, hu⟩, hr⟩
  choose f hfr using hf
  obtain ⟨v₀, hv₀⟩ : ∃ v, v ∈ R := by
    cases R with
    | nil => exact absurd rfl hne
    | cons a l => exact ⟨a, by simp⟩
  set g : Nat → {x // x ∈ R} := fun n => f^[n] ⟨v₀, hv₀⟩ with hg
  have hstep : ∀ n, r (g (n + 1)).1 (g n).1 := by
    intro n
    have : g (n + 1) = f (g n) := by
      rw [hg]
      simp [Function.iterate_succ_apply']
    rw [this]
    exact hfr (g n)
  have hchain : ∀ a b : Nat, a < b → Relation.TransGen r (g b).1 (g a).1 := by
    intro a b hab
    induction b with
    | zero => omega
    | succ b ihb =>
      rcases Nat.lt_or_ge a b with hab' | hab'
      · exact (Relation.TransGen.head (hstep b) (ihb hab'))
      · have : a = b := by omega
        subst this
        exact Relation.TransGen.single (hstep a)
  -- pigeonhole over `R.length + 1` iterates
  have hcard : (R.toFinset.card) < (Finset.range (R.length + 1)).card := by
    have := R.toFinset_card_le
    simp only [Finset.card_range]
    omega
  have hmaps : ∀ n ∈ Finset.range (R.length + 1), (g n).1 ∈ R.toFinset := by
    intro n _
    simp only [List.mem_toFinset]
    exact (g n).2
  obtain ⟨i, _, j, _, hij, hgij⟩ :=
    Finset.exists_ne_map_eq_of_card_lt_of_maps_to hcard hmaps
  rcases Nat.lt_or_ge i j with hlt | hge
  · exact ⟨(g i).1, (g i).2, hgij ▸ hchain i j hlt⟩
  · have hlt : j < i := by omega
    exact ⟨(g j).1, (g j).2, hgij ▸ hchain j i hlt⟩

theorem checkEdges_eq_none (ids : List String) (edges : List PEdge)
    (h : ∀ e ∈ edges, e.source ∈ ids ∧ e.target ∈ ids) :
    checkEdges ids edges = none := by
  induction edges with
  | nil => rfl
  | cons e es ih =>
    obtain ⟨hs, ht⟩ := h e (by simp)
    simp only [checkEdges, if_pos hs, if_pos ht]
    exact ih fun e' he' => h e' (by simp [he'])

/-- Master correctness lemma for the embedded `topological_sort`: on a
validated acyclic flow it succeeds, the order is a permutation of the node
ids, and sources precede targets. -/
theorem kahn_main (π : List String → List String) (hπ : SetEnum π)
    (nodes : List PNode) (edges : List PEdge)
    (hids : (nodes.map PNode.id).Nodup)
    (hedges : ∀ e ∈ edges,
      e.source ∈ nodes.map PNode.id ∧ e.target ∈ nodes.map PNode.id)
    (hacyc : Acyclic edges) :
    ∃ order, topological_sort π nodes edges = .ok order ∧
      order.Perm (nodes.map PNode.id) ∧
      ∀ e ∈ edges, order.indexOf e.source < order.indexOf e.target := by
  set ids := nodes.map PNode.id with hidsdef
  have hchk := checkEdges_eq_none ids edges hedges
  have hinit := kahnInv_init edges ids π hπ
  have hspec := kahnLoop_spec edges ids hids hedges ids.length []
    ((π ids).filter (fun v => decide (indeg0 edges v = 0))) (indeg0 edges) hinit
    (by simp)
  set fin := kahnLoop (adj edges) ids.length []
    ((π ids).filter (fun v => decide (indeg0 edges v = 0))) (indeg0 edges) with hfin
  obtain ⟨hqnil, inv⟩ := hspec
  -- every id is in the final result, else the residual graph yields a cycle
  have hall : ∀ v ∈ ids, v ∈ fin.1 := by
    by_contra hnot
    push_neg at hnot
    set R := ids.filter (fun v => decide (v ∉ fin.1)) with hR
    have hRne : R ≠ [] := by
      obtain ⟨v, hvids, hvnot⟩ := hnot
      intro hnil
      have : v ∈ R := by
        rw [hR, List.mem_filter, decide_eq_true_eq]
        exact ⟨hvids, hvnot⟩
      rw [hnil] at this
      simp at this
    have hpred : ∀ v ∈ R, ∃ u ∈ R, edgeRel edges u v := by
      intro v hv
      rw [hR, List.mem_filter, decide_eq_true_eq] at hv
      obtain ⟨hvids, hvres⟩ := hv
      have hne : fin.2.2 v ≠ 0 := inv.unreached v hvids (by simpa [hqnil] using hvres)
      rw [inv.deg v, remDeg] at hne
      have hpos : 0 < (edges.filter
          (fun e => decide (e.target = v ∧ e.source ∉ fin.1))).length := by
        rcases Nat.eq_zero_or_pos (edges.filter
            (fun e => decide (e.target = v ∧ e.source ∉ fin.1))).length with h0 | h0
        · exact absurd (by exact_mod_cast h0) hne
        · exact h0
      obtain ⟨e, hef⟩ := List.exists_mem_of_length_pos hpos
      rw [List.mem_filter, decide_eq_true_eq] at hef
      obtain ⟨he, het, hes⟩ := hef
      refine ⟨e.source, ?_, ⟨e, he, rfl, het⟩⟩
      rw [hR, List.mem_filter, decide_eq_true_eq]
      exact ⟨(hedges e he).1, hes⟩
    obtain ⟨v, hvR, hcyc⟩ := cycle_of_preds R hRne hpred
    exact hacyc v hcyc
  have hperm : fin.1.Perm ids := by
    have h1 := List.subperm_of_subset
      (by simpa [hqnil] using inv.nodup) (by simpa [hqnil] using inv.mem_ids)
    have h2 := List.subperm_of_subset hids hall
    exact h1.antisymm h2
  have hlen : fin.1.length = ids.length := hperm.length_eq
  refine ⟨fin.1, ?_, hperm, ?_⟩
  · rw [topological_sort]
    simp only [← hidsdef, if_pos hids, hchk]
    rw [← hfin, if_pos hlen]
  · intro e he
    have htg : e.target ∈ fin.1 := hperm.mem_iff.2 (hedges e he).2
    exact (inv.order e he htg).2

/-! ## Correctness of the embedded `_find_cycle` -/

/-- One DFS step of `_find_cycle`: follow an adjacency edge whose target
passes the `neighbor in remaining_nodes` test. -/
def stepRel (g : String → List String) (rem : List String) (a b : String) : Prop :=
  b ∈ g a ∧ b ∈ rem

/-- No cycle of the restricted graph is reachable from `v`. -/
def Safe (g : String → List String) (rem : List String) (v : String) : Prop :=
  ¬ ∃ w, Relation.ReflTransGen (stepRel g rem) v w ∧
      Relation.TransGen (stepRel g rem) w w

/-- A nonempty closed walk of the restricted graph, listed with its start
repeated at the end. -/
def IsStepCycle (g : String → List String) (rem : List String)
    (c : List String) : Prop :=
  2 ≤ c.length ∧ c.head? = c.getLast? ∧ List.Chain' (stepRel g rem) c ∧
    ∀ x ∈ c, x ∈ rem

theorem filter_not_mem_lt (rem visited : List String) (node : String)
    (hmem : node ∈ rem) (hnv : node ∉ visited) :
    (rem.filter (fun v => decide (v ∉ visited ++ [node]))).length <
      (rem.filter (fun v => decide (v ∉ visited))).length := by
  induction rem with
  | nil => simp at hmem
  | cons x xs ih =>
    have hmono : List.Sublist
        (xs.filter (fun v => decide (v ∉ visited ++ [node])))
        (xs.filter (fun v => decide (v ∉ visited))) := by
      apply List.monotone_filter_right
      intro a ha
      simp only [decide_eq_true_eq, List.mem_append] at ha ⊢
      exact fun hc => ha (Or.inl hc)
    rcases eq_or_ne x node with hx | hx
    · subst hx
      rw [List.filter_cons, List.filter_cons, if_neg (by simp), if_pos (by simpa using hnv)]
      have := hmono.length_le
      simp only [List.length_cons]
      omega
    · have hmem' : node ∈ xs := by
        rcases List.mem_cons.1 hmem with h | h
        · exact absurd h.symm hx
        · exact h
      have hlt := ih hmem'
      rw [List.filter_cons, List.filter_cons]
      by_cases hxv : x ∈ visited
      · rw [if_neg (by simp [hxv]), if_neg (by simp [hxv])]
        exact hlt
      · rw [if_pos (by simp [hxv, hx]), if_pos (by simpa using hxv)]
        simpa using Nat.succ_lt_succ hlt

theorem filter_not_mem_le (rem v₁ v₂ : List String) (h : ∀ x ∈ v₁, x ∈ v₂) :
    (rem.filter (fun v => decide (v ∉ v₂))).length ≤
      (rem.filter (fun v => decide (v ∉ v₁))).length := by
  have hsub : List.Sublist (rem.filter (fun v => decide (v ∉ v₂)))
      (rem.filter (fun v => decide (v ∉ v₁))) := by
    apply List.monotone_filter_right
    intro a ha
    simp only [decide_eq_true_eq] at ha ⊢
    exact fun hc => ha (h a hc)
  exact hsub.length_le

theorem head?_drop_indexOf (path : List String) (node : String) (h : node ∈ path) :
    (path.drop (path.indexOf node)).head? = some node := by
  have hi : path.indexOf node < path.length := List.indexOf_lt_length.2 h
  rw [List.head?_drop, List.getElem?_eq_getElem hi]
  exact congrArg some (List.getElem_indexOf hi)

/-- If every in-neighborhood step from `node` leads to a safe vertex,
`node` is safe. -/
theorem safe_of_neighbors (g : String → List String) (rem : List String)
    (node : String) (h : ∀ n, stepRel g rem node n → Safe g rem n) :
    Safe g rem node := by
  rintro ⟨w, hrw, hcw⟩
  rcases Relation.ReflTransGen.cases_head hrw with heq | ⟨b, hb, hbw⟩
  · subst heq
    obtain ⟨b, hb, hbnode⟩ := (Relation.TransGen.head'_iff).1 hcw
    exact h b hb ⟨node, hbnode, hcw⟩
  · exact h b hb ⟨w, hbw, hcw⟩

/-- Joint specification of `dfsVisit` and `dfsFold`: a nonempty return
value is a genuine cycle of the restricted graph, and an empty return
value certifies that everything newly visited is safe. -/
theorem dfs_spec (g : String → List String) (rem : List String) :
    ∀ fuel : Nat,
      (∀ node path visited, node ∈ rem → (∀ x ∈ path, x ∈ rem) →
        List.Chain' (stepRel g rem) (path ++ [node]) →
        (∀ x ∈ path, x ∈ visited) →
        (∀ v ∈ visited, v ∉ path → Safe g rem v) →
        (rem.filter (fun v => decide (v ∉ visited))).length < fuel →
        ((dfsVisit g rem fuel node path visited).1 ≠ [] →
            IsStepCycle g rem (dfsVisit g rem fuel node path visited).1) ∧
          ((dfsVisit g rem fuel node path visited).1 = [] →
            (∀ v ∈ visited, v ∈ (dfsVisit g rem fuel node path visited).2) ∧
            node ∈ (dfsVisit g rem fuel node path visited).2 ∧ node ∉ path ∧
            ∀ v ∈ (dfsVisit g rem fuel node path visited).2, v ∉ path →
              Safe g rem v)) ∧
      (∀ ns path visited last, path.getLast? = some last →
        (∀ x ∈ path, x ∈ rem) →
        List.Chain' (stepRel g rem) path →
        (∀ n ∈ ns, n ∈ g last) →
        (∀ x ∈ path, x ∈ visited) →
        (∀ v ∈ visited, v ∉ path → Safe g rem v) →
        (rem.filter (fun v => decide (v ∉ visited))).length < fuel →
        ((dfsFold g rem fuel ns path visited).1 ≠ [] →
            IsStepCycle g rem (dfsFold g rem fuel ns path visited).1) ∧
          ((dfsFold g rem fuel ns path visited).1 = [] →
            (∀ v ∈ visited, v ∈ (dfsFold g rem fuel ns path visited).2) ∧
            (∀ v ∈ (dfsFold g rem fuel ns path visited).2, v ∉ path →
              Safe g rem v) ∧
            ∀ n ∈ ns, n ∈ rem →
              n ∉ path ∧ n ∈ (dfsFold g rem fuel ns path visited).2)) := by
  intro fuel
  induction fuel with
  | zero =>
    constructor
    · intro node path visited _ _ _ _ _ hb
      omega
    · intro ns path visited last _ _ _ _ _ _ hb
      omega
  | succ fuel ih =>
    obtain ⟨_, ihF⟩ := ih
    have hP : ∀ node path visited, node ∈ rem → (∀ x ∈ path, x ∈ rem) →
        List.Chain' (stepRel g rem) (path ++ [node]) →
        (∀ x ∈ path, x ∈ visited) →
        (∀ v ∈ visited, v ∉ path → Safe g rem v) →
        (rem.filter (fun v => decide (v ∉ visited))).length < fuel + 1 →
        ((dfsVisit g rem (fuel + 1) node path visited).1 ≠ [] →
            IsStepCycle g rem (dfsVisit g rem (fuel + 1) node path visited).1) ∧
          ((dfsVisit g rem (fuel + 1) node path visited).1 = [] →
            (∀ v ∈ visited, v ∈ (dfsVisit g rem (fuel + 1) node path visited).2) ∧
            node ∈ (dfsVisit g rem (fuel + 1) node path visited).2 ∧ node ∉ path ∧
            ∀ v ∈ (dfsVisit g rem (fuel + 1) node path visited).2, v ∉ path →
              Safe g rem v) := by
      intro node path visited hnode hpathrem hchain hpathvis hsafe hb
      by_cases hnp : node ∈ path
      · -- back edge: a cycle is returned
        rw [dfsVisit, if_pos hnp]
        have hi : path.indexOf node < path.length := List.indexOf_lt_length.2 hnp
        constructor
        · intro _
          refine ⟨?_, ?_, ?_, ?_⟩
          · simp only [List.length_append, List.length_drop, List.length_singleton]
            omega
          · have hhd : (path.drop (path.indexOf node) ++ [node]).head? = some node := by
              have h1 := head?_drop_indexOf path node hnp
              cases hdp : path.drop (path.indexOf node) with
              | nil => rw [hdp] at h1; simp at h1
              | cons a t =>
                rw [hdp] at h1
                simp only [List.head?_cons, Option.some.injEq] at h1
                simp [h1]
            rw [hhd, List.getLast?_concat]
          · have hdropeq : (path ++ [node]).drop (path.indexOf node) =
                path.drop (path.indexOf node) ++ [node] :=
              List.drop_append_of_le_length (by omega)
            have := hchain.drop (path.indexOf node)
            rwa [hdropeq] at this
          · intro x hx
            rcases List.mem_append.1 hx with hx | hx
            · exact hpathrem x (List.drop_subset _ _ hx)
            · simp only [List.mem_singleton] at hx
              exact hx ▸ hnode
        · intro hcontra
          simp at hcontra
      · by_cases hnv : node ∈ visited
        · rw [dfsVisit, if_neg hnp, if_pos hnv]
          exact ⟨fun h => absurd rfl h,
            fun _ => ⟨fun v hv => hv, hnv, hnp, hsafe⟩⟩
        · -- explore the neighbors
          rw [dfsVisit, if_neg hnp, if_neg hnv]
          have hlast : (path ++ [node]).getLast? = some node := List.getLast?_concat _
          have hpathrem' : ∀ x ∈ path ++ [node], x ∈ rem := by
            intro x hx
            rcases List.mem_append.1 hx with hx | hx
            · exact hpathrem x hx
            · simp only [List.mem_singleton] at hx
              exact hx ▸ hnode
          have hpathvis' : ∀ x ∈ path ++ [node], x ∈ visited ++ [node] := by
            intro x hx
            rcases List.mem_append.1 hx with hx | hx
            · exact List.mem_append_left _ (hpathvis x hx)
            · exact List.mem_append_right _ hx
          have hsafe' : ∀ v ∈ visited ++ [node], v ∉ path ++ [node] →
              Safe g rem v := by
            intro v hv hvp
            rcases List.mem_append.1 hv with hv | hv
            · exact hsafe v hv fun hc => hvp (List.mem_append_left _ hc)
            · exact absurd (List.mem_append_right _ hv) hvp
          have hb' : (rem.filter
              (fun v => decide (v ∉ visited ++ [node]))).length < fuel := by
            have := filter_not_mem_lt rem visited node hnode hnv
            omega
          obtain ⟨fS, fE⟩ := ihF (g node) (path ++ [node]) (visited ++ [node]) node
            hlast hpathrem' hchain (fun n hn => hn) hpathvis' hsafe' hb'
          refine ⟨fS, fun hempty => ?_⟩
          obtain ⟨hvis, hsafeF, hnbr⟩ := fE hempty
          have hnodeIn : node ∈ (dfsFold g rem fuel (g node) (path ++ [node])
              (visited ++ [node])).2 := hvis node (List.mem_append_right _ (by simp))
          refine ⟨fun v hv => hvis v (List.mem_append_left _ hv), hnodeIn, hnp, ?_⟩
          intro v hv hvp
          rcases eq_or_ne v node with hveq | hvne
          · -- the crux: `node` itself is safe once all neighbors are
            subst hveq
            apply safe_of_neighbors
            rintro n ⟨hng, hnrem⟩
            obtain ⟨hnpath', hnin⟩ := hnbr n hng hnrem
            exact hsafeF n hnin hnpath'
          · refine hsafeF v hv fun hc => ?_
            rcases List.mem_append.1 hc with hc | hc
            · exact hvp hc
            · simp only [List.mem_singleton] at hc
              exact hvne hc
    refine ⟨hP, ?_⟩
    intro ns
    induction ns with
    | nil =>
      intro path visited last _ _ _ _ _ hsafe hb
      rw [dfsFold]
      exact ⟨fun h => absurd rfl h,
        fun _ => ⟨fun v hv => hv, hsafe, fun n hn => absurd hn (List.not_mem_nil n)⟩⟩
    | cons n ns ihns =>
      intro path visited last hlast hpathrem hchain hns hpathvis hsafe hb
      rw [dfsFold]
      by_cases hnrem : n ∈ rem
      · rw [if_pos hnrem]
        have hchain' : List.Chain' (stepRel g rem) (path ++ [n]) := by
          rw [List.chain'_append]
          refine ⟨hchain, List.chain'_singleton n, ?_⟩
          intro x hx y hy
          rw [hlast] at hx
          simp only [Option.mem_def, Option.some.injEq] at hx
          simp only [List.head?_cons, Option.mem_def, Option.some.injEq] at hy
          exact hx ▸ hy ▸ ⟨hns n (by simp), hnrem⟩
        obtain ⟨vS, vE⟩ := hP n path visited hnrem hpathrem hchain' hpathvis hsafe hb
        by_cases hr : (dfsVisit g rem (fuel + 1) n path visited).1 ≠ []
        · rw [if_pos hr]
          exact ⟨fun _ => vS hr, fun hc => absurd hc (by simpa using hr)⟩
        · rw [if_neg hr]
          push_neg at hr
          obtain ⟨hvis, hnin, hnpath, hsafeV⟩ := vE hr
          have hpathvis₂ : ∀ x ∈ path,
              x ∈ (dfsVisit g rem (fuel + 1) n path visited).2 :=
            fun x hx => hvis x (hpathvis x hx)
          have hb₂ : (rem.filter (fun v =>
              decide (v ∉ (dfsVisit g rem (fuel + 1) n path visited).2))).length <
              fuel + 1 := by
            have := filter_not_mem_le rem visited
              (dfsVisit g rem (fuel + 1) n path visited).2 hvis
            omega
          obtain ⟨fS, fE⟩ := ihns path (dfsVisit g rem (fuel + 1) n path visited).2
            last hlast hpathrem hchain (fun m hm => hns m (by simp [hm]))
            hpathvis₂ hsafeV hb₂
          refine ⟨fS, fun hempty => ?_⟩
          obtain ⟨hvis₂, hsafe₂, hnbr₂⟩ := fE hempty
          refine ⟨fun v hv => hvis₂ v (hvis v hv), hsafe₂, ?_⟩
          intro m hm hmrem
          rcases List.mem_cons.1 hm with hm | hm
          · subst hm
            exact ⟨hnpath, hvis₂ _ hnin⟩
          · exact hnbr₂ m hm hmrem
      · rw [if_neg hnrem]
        obtain ⟨fS, fE⟩ := ihns path visited last hlast hpathrem hchain
          (fun m hm => hns m (by simp [hm])) hpathvis hsafe hb
        refine ⟨fS, fun hempty => ?_⟩
        obtain ⟨hvis₂, hsafe₂, hnbr₂⟩ := fE hempty
        refine ⟨hvis₂, hsafe₂, ?_⟩
        intro m hm hmrem
        rcases List.mem_cons.1 hm with hm | hm
        · exact absurd hmrem (hm ▸ hnrem)
        · exact hnbr₂ m hm hmrem

theorem findCycleLoop_spec (g : String → List String) (rem : List String) :
    ∀ (order visited : List String),
      (∀ n ∈ order, n ∈ rem) →
      (∀ v ∈ visited, Safe g rem v) →
      (findCycleLoop g rem order visited ≠ [] →
          IsStepCycle g rem (findCycleLoop g rem order visited)) ∧
        (findCycleLoop g rem order visited = [] → ∀ n ∈ order, Safe g rem n) := by
  intro order
  induction order with
  | nil =>
    intro visited _ _
    rw [findCycleLoop]
    exact ⟨fun h => absurd rfl h, fun _ n hn => absurd hn (List.not_mem_nil n)⟩
  | cons n ns ih =>
    intro visited horder hsafe
    rw [findCycleLoop]
    by_cases hnv : n ∈ visited
    · rw [if_pos hnv]
      obtain ⟨s, e⟩ := ih visited (fun m hm => horder m (by simp [hm])) hsafe
      refine ⟨s, fun hempty m hm => ?_⟩
      rcases List.mem_cons.1 hm with rfl | hm
      · exact hsafe m hnv
      · exact e hempty m hm
    · rw [if_neg hnv]
      have hnrem : n ∈ rem := horder n (by simp)
      obtain ⟨vS, vE⟩ := (dfs_spec g rem (rem.length + 1)).1 n [] visited hnrem
        (by simp) (by simp) (by simp) (fun v hv _ => hsafe v hv)
        (by have := List.length_filter_le (fun v => decide (v ∉ visited)) rem; omega)
      by_cases hr : (dfsVisit g rem (rem.length + 1) n [] visited).1 ≠ []
      · rw [if_pos hr]
        exact ⟨fun _ => vS hr, fun hc => absurd hc (by simpa using hr)⟩
      · rw [if_neg hr]
        push_neg at hr
        obtain ⟨hvis, hnin, _, hsafeV⟩ := vE hr
        obtain ⟨s, e⟩ := ih (dfsVisit g rem (rem.length + 1) n [] visited).2
          (fun m hm => horder m (by simp [hm]))
          (fun v hv => hsafeV v hv (List.not_mem_nil v))
        refine ⟨s, fun hempty m hm => ?_⟩
        rcases List.mem_cons.1 hm with rfl | hm
        · exact hsafeV m hnin (List.not_mem_nil m)
        · exact e hempty m hm

theorem find_cycle_spec (g : String → List String) (rem : List String)
    (hcyc : ∃ v, Relation.TransGen (stepRel g rem) v v) :
    IsStepCycle g rem (find_cycle g rem) := by
  obtain ⟨v, hv⟩ := hcyc
  have hvrem : v ∈ rem := by
    obtain ⟨c, _, hr⟩ := (Relation.TransGen.tail'_iff).1 hv
    exact hr.2
  obtain ⟨s, e⟩ := findCycleLoop_spec g rem rem [] (fun n hn => hn) (by simp)
  by_cases h : findCycleLoop g rem rem [] = []
  · exact absurd ⟨v, Relation.ReflTransGen.refl, hv⟩ (e h v hvrem)
  · have hc := s h
    rw [find_cycle]
    cases hfc : findCycleLoop g rem rem [] with
    | nil => exact absurd hfc h
    | cons a t =>
      rw [hfc] at hc
      exact hc

theorem transGen_indexOf_lt (edges : List PEdge) (order : List String)
    (hord : ∀ e ∈ edges, order.indexOf e.source < order.indexOf e.target)
    {u v : String} (h : Relation.TransGen (edgeRel edges) u v) :
    order.indexOf u < order.indexOf v := by
  induction h with
  | single hr =>
    obtain ⟨e, he, hs, ht⟩ := hr
    exact hs ▸ ht ▸ hord e he
  | tail _ hr ih =>
    obtain ⟨e, he, hs, ht⟩ := hr
    exact ih.trans (hs ▸ ht ▸ hord e he)

theorem mem_adj_iff (edges : List PEdge) (u v : String) :
    v ∈ adj edges u ↔ edgeRel edges u v := by
  simp only [adj, edgeRel, List.mem_map, List.mem_filter, decide_eq_true_eq]
  constructor
  · rintro ⟨e, ⟨he, hs⟩, ht⟩
    exact ⟨e, he, hs, ht⟩
  · rintro ⟨e, he, hs, ht⟩
    exact ⟨e, ⟨he, hs⟩, ht⟩

/-- C2: For every flow whose directed graph contains a cycle (and whose
node ids are unique and edge endpoints resolve, as `topological_sort`
rejects anything else earlier with a `DAGValidationError`), the sort
fails with a `CycleDetected` error whose reported path consists of nodes
of the flow forming a directed cycle: each consecutive pair is an edge
and the path returns to its start.  `π` is the iteration order of the
Python string sets used by the source. -/
theorem C2_cycle_detected (π : List String → List String) (hπ : SetEnum π)
    (nodes : List PNode) (edges : List PEdge)
    (hids : (nodes.map PNode.id).Nodup)
    (hedges : ∀ e ∈ edges,
      e.source ∈ nodes.map PNode.id ∧ e.target ∈ nodes.map PNode.id)
    (hcyc : ∃ v, Relation.TransGen (edgeRel edges) v v) :
    ∃ p, topological_sort π nodes edges = .error (.cycleError p) ∧
      2 ≤ p.length ∧ p.head? = p.getLast? ∧ List.Chain' (edgeRel edges) p ∧
      ∀ x ∈ p, x ∈ nodes.map PNode.id := by
  set ids := nodes.map PNode.id with hidsdef
  have hchk := checkEdges_eq_none ids edges hedges
  have hinit := kahnInv_init edges ids π hπ
  have hspec := kahnLoop_spec edges ids hids hedges ids.length []
    ((π ids).filter (fun v => decide (indeg0 edges v = 0))) (indeg0 edges) hinit
    (by simp)
  set fin := kahnLoop (adj edges) ids.length []
    ((π ids).filter (fun v => decide (indeg0 edges v = 0))) (indeg0 edges) with hfin
  obtain ⟨hqnil, inv⟩ := hspec
  have hsub : List.Subperm fin.1 ids :=
    List.subperm_of_subset (by simpa [hqnil] using inv.nodup)
      (by simpa [hqnil] using inv.mem_ids)
  -- a full result would order the cycle, which is impossible
  have hlen_ne : fin.1.length ≠ ids.length := by
    intro hlen
    have hperm : fin.1.Perm ids := hsub.perm_of_length_le (by omega)
    have hord : ∀ e ∈ edges, fin.1.indexOf e.source < fin.1.indexOf e.target := by
      intro e he
      exact (inv.order e he (hperm.mem_iff.2 (hedges e he).2)).2
    obtain ⟨v, hv⟩ := hcyc
    exact absurd (transGen_indexOf_lt edges fin.1 hord hv) (lt_irrefl _)
  set rem := π (ids.filter (fun v => decide (v ∉ fin.1))) with hrem
  have hremiff : ∀ x, x ∈ rem ↔ (x ∈ ids ∧ x ∉ fin.1) := by
    intro x
    rw [hrem, (hπ _).2 x, List.mem_filter, decide_eq_true_eq]
  -- every residual node has a residual predecessor
  have hpred : ∀ v ∈ rem,
      ∃ u ∈ rem, edgeRel edges u v ∧ u ∈ rem ∧ v ∈ rem := by
    intro v hv
    obtain ⟨hvids, hvres⟩ := (hremiff v).1 hv
    have hne : fin.2.2 v ≠ 0 := inv.unreached v hvids (by simpa [hqnil] using hvres)
    rw [inv.deg v, remDeg] at hne
    have hpos : 0 < (edges.filter
        (fun e => decide (e.target = v ∧ e.source ∉ fin.1))).length := by
      rcases Nat.eq_zero_or_pos (edges.filter
          (fun e => decide (e.target = v ∧ e.source ∉ fin.1))).length with h0 | h0
      · exact absurd (by exact_mod_cast h0) hne
      · exact h0
    obtain ⟨e, hef⟩ := List.exists_mem_of_length_pos hpos
    rw [List.mem_filter, decide_eq_true_eq] at hef
    obtain ⟨he, het, hes⟩ := hef
    have husrc : e.source ∈ rem := (hremiff e.source).2 ⟨(hedges e he).1, hes⟩
    exact ⟨e.source, husrc, ⟨e, he, rfl, het⟩, husrc, hv⟩
  have hremne : rem ≠ [] := by
    have hlt : fin.1.length < ids.length := lt_of_le_of_ne hsub.length_le hlen_ne
    have : ∃ v ∈ ids, v ∉ fin.1 := by
      by_contra hall
      push_neg at hall
      have := (List.subperm_of_subset hids hall).length_le
      omega
    obtain ⟨v, hvids, hvres⟩ := this
    exact List.ne_nil_of_mem ((hremiff v).2 ⟨hvids, hvres⟩)
  -- a cycle of the restricted residual graph exists
  obtain ⟨v, hvrem, hvcyc⟩ := cycle_of_preds
    (r := fun u v => edgeRel edges u v ∧ u ∈ rem ∧ v ∈ rem) rem hremne hpred
  have hstep : ∃ w, Relation.TransGen (stepRel (adj edges) rem) w w := by
    refine ⟨v, hvcyc.mono ?_⟩
    rintro a b ⟨hab, _, hbrem⟩
    exact ⟨(mem_adj_iff edges a b).2 hab, hbrem⟩
  have hfound := find_cycle_spec (adj edges) rem hstep
  obtain ⟨hlen2, hheads, hchain, hmem⟩ := hfound
  refine ⟨find_cycle (adj edges) rem, ?_, hlen2, hheads, ?_, ?_⟩
  · rw [topological_sort]
    simp only [← hidsdef, if_pos hids, hchk]
    rw [← hfin, if_neg hlen_ne, ← hrem]
  · exact hchain.imp fun a b hab => (mem_adj_iff edges a b).1 hab.1
  · intro x hx
    exact ((hremiff x).1 (hmem x hx)).1

/-! ## Claim theorems for the scheduler (C1, C2, C8) -/

theorem setEnum_dedup : SetEnum (fun l => l.dedup) :=
  fun l => ⟨l.nodup_dedup, fun _ => List.mem_dedup⟩

theorem setEnum_dedup_reverse : SetEnum (fun l => l.dedup.reverse) := fun l =>
  ⟨List.nodup_reverse.2 l.nodup_dedup, fun x => by simp [List.mem_reverse, List.mem_dedup]⟩

/-- A ranking function certifies acyclicity. -/
theorem acyclic_of_rank (edges : List PEdge) (f : String → Nat)
    (h : ∀ e ∈ edges, f e.source < f e.target) : Acyclic edges := by
  intro v hcyc
  have mono : ∀ a b, Relation.TransGen (edgeRel edges) a b → f a < f b := by
    intro a b hab
    induction hab with
    | single hr =>
      obtain ⟨e, he, hs, ht⟩ := hr
      exact hs ▸ ht ▸ h e he
    | tail _ hr ih =>
      obtain ⟨e, he, hs, ht⟩ := hr
      exact ih.trans (hs ▸ ht ▸ h e he)
  exact lt_irrefl _ (mono v v hcyc)

/-- C1: For every valid flow (every edge endpoint resolves to a declared
node, no duplicate node ids, acyclic graph) and any iteration order of the
Python node-id set, `topological_sort` returns an order of length
`|nodes|` containing every node id exactly once, in which every edge's
source is placed strictly before its target. -/
theorem C1_topo_sort_valid_flow (π : List String → List String) (hπ : SetEnum π)
    (nodes : List PNode) (edges : List PEdge)
    (hids : (nodes.map PNode.id).Nodup)
    (hedges : ∀ e ∈ edges,
      e.source ∈ nodes.map PNode.id ∧ e.target ∈ nodes.map PNode.id)
    (hacyc : Acyclic edges) :
    ∃ order, topological_sort π nodes edges = .ok order ∧
      order.length = nodes.length ∧
      (∀ v ∈ nodes.map PNode.id, order.count v = 1) ∧
      ∀ e ∈ edges, order.indexOf e.source < order.indexOf e.target := by
  obtain ⟨order, hok, hperm, hord⟩ := kahn_main π hπ nodes edges hids hedges hacyc
  refine ⟨order, hok, ?_, ?_, hord⟩
  · simpa using hperm.length_eq
  · intro v hv
    rw [hperm.count_eq]
    exact List.count_eq_one_of_mem hids hv

def exNodes1 : List PNode :=
  [⟨"a", "maxdp_table_reader"⟩, ⟨"b", "maxdp_select_columns"⟩,
    ⟨"c", "maxdp_display_results"⟩]

def exEdges1 : List PEdge := [⟨"a", "b", none, none⟩, ⟨"b", "c", none, none⟩]

def exRank1 : String → Nat := fun s => if s = "a" then 0 else if s = "b" then 1 else 2

/-- Witness for C1 at a concrete three-node chain. -/
theorem C1_witness :
    ∃ order, topological_sort (fun l => l.dedup) exNodes1 exEdges1 = .ok order ∧
      order.length = exNodes1.length ∧
      (∀ v ∈ exNodes1.map PNode.id, order.count v = 1) ∧
      ∀ e ∈ exEdges1, order.indexOf e.source < order.indexOf e.target :=
  C1_topo_sort_valid_flow (fun l => l.dedup) setEnum_dedup exNodes1 exEdges1
    (by decide) (by decide) (acyclic_of_rank exEdges1 exRank1 (by decide))

def exEdges2 : List PEdge :=
  [⟨"a", "b", none, none⟩, ⟨"b", "c", none, none⟩, ⟨"c", "a", none, none⟩]

/-- Witness for C2 at a concrete three-node cycle. -/
theorem C2_witness :
    ∃ p, topological_sort (fun l => l.dedup) exNodes1 exEdges2 =
        .error (.cycleError p) ∧
      2 ≤ p.length ∧ p.head? = p.getLast? ∧ List.Chain' (edgeRel exEdges2) p ∧
      ∀ x ∈ p, x ∈ exNodes1.map PNode.id :=
  C2_cycle_detected (fun l => l.dedup) setEnum_dedup exNodes1 exEdges2
    (by decide) (by decide)
    ⟨"a", Relation.TransGen.head (show edgeRel exEdges2 "a" "b" by decide)
      (Relation.TransGen.head (show edgeRel exEdges2 "b" "c" by decide)
        (Relation.TransGen.single (show edgeRel exEdges2 "c" "a" by decide)))⟩

def exNodes8 : List PNode := [⟨"a", "maxdp_static_data"⟩, ⟨"b", "maxdp_static_data"⟩]

/-- C8 counterexample: the queue is seeded by iterating the Python *set*
`node_ids`, not the declaration list; two legitimate set-iteration orders
give different execution orders for the same `nodes`/`edges` lists, so the
result is not a function of the flow alone. -/
theorem C8_counterexample :
    SetEnum (fun l => l.dedup) ∧ SetEnum (fun l => l.dedup.reverse) ∧
      topological_sort (fun l => l.dedup) exNodes8 [] ≠
        topological_sort (fun l => l.dedup.reverse) exNodes8 [] :=
  ⟨setEnum_dedup, setEnum_dedup_reverse, by decide⟩

/-- C8 amended: the queue is seeded with all zero-in-degree nodes in the
iteration order of the Python set `node_ids` (hash-dependent), not in
declaration order.  For a fixed set-iteration order the returned order is
a deterministic function of `nodes` and `edges`, and every valid
iteration order yields a correct topological order, but two runs with
different set-iteration orders may return different orders. -/
theorem C8_amended (π₁ π₂ : List String → List String)
    (hπ₁ : SetEnum π₁) (hπ₂ : SetEnum π₂)
    (nodes : List PNode) (edges : List PEdge)
    (hids : (nodes.map PNode.id).Nodup)
    (hedges : ∀ e ∈ edges,
      e.source ∈ nodes.map PNode.id ∧ e.target ∈ nodes.map PNode.id)
    (hacyc : Acyclic edges) :
    (π₁ = π₂ → topological_sort π₁ nodes edges = topological_sort π₂ nodes edges) ∧
      (∃ o₁, topological_sort π₁ nodes edges = .ok o₁ ∧
        o₁.Perm (nodes.map PNode.id) ∧
        ∀ e ∈ edges, o₁.indexOf e.source < o₁.indexOf e.target) ∧
      ∃ o₂, topological_sort π₂ nodes edges = .ok o₂ ∧
        o₂.Perm (nodes.map PNode.id) ∧
        ∀ e ∈ edges, o₂.indexOf e.source < o₂.indexOf e.target :=
  ⟨fun h => h ▸ rfl, kahn_main π₁ hπ₁ nodes edges hids hedges hacyc,
    kahn_main π₂ hπ₂ nodes edges hids hedges hacyc⟩

/-- Witness for the amended C8. -/
theorem C8_amended_witness :
    ((fun (l : List String) => List.dedup l) =
        (fun (l : List String) => (List.dedup l).reverse) →
      topological_sort (fun l => l.dedup) exNodes8 [] =
        topological_sort (fun l => l.dedup.reverse) exNodes8 []) ∧
      (∃ o₁, topological_sort (fun l => l.dedup) exNodes8 [] = .ok o₁ ∧
        o₁.Perm (exNodes8.map PNode.id) ∧
        ∀ e ∈ ([] : List PEdge), o₁.indexOf e.source < o₁.indexOf e.target) ∧
      ∃ o₂, topological_sort (fun l => l.dedup.reverse) exNodes8 [] = .ok o₂ ∧
        o₂.Perm (exNodes8.map PNode.id) ∧
        ∀ e ∈ ([] : List PEdge), o₂.indexOf e.source < o₂.indexOf e.target :=
  C8_amended (fun l => l.dedup) (fun l => l.dedup.reverse)
    setEnum_dedup setEnum_dedup_reverse exNodes8 []
    (by decide) (by simp) (acyclic_of_rank [] (fun _ => 0) (by simp))

/-! ## Flow executor (`maxdp_flow_executor.py`): input preparation and
final-result selection

Node outputs are modelled by `node_outputs : String → Option V`
(`FlowExecutionContext.get_node_output` returns `None` for missing ids);
dict values of any type are abstracted by the type parameter `V`. -/

/-- `edge_map['inputs'][node_id]` from `_build_edge_map`: sources of the
edges into `node_id`, in edge-declaration order. -/
def edge_map_inputs (edges : List PEdge) (node_id : String) : List String :=
  (edges.filter (fun e => decide (e.target = node_id))).map PEdge.source

/-- `edge_map['outputs'][node_id]` from `_build_edge_map`. -/
def edge_map_outputs (edges : List PEdge) (node_id : String) : List String :=
  (edges.filter (fun e => decide (e.source = node_id))).map PEdge.target

/-- `_get_output_handle_name`: from the first edge joining the two nodes,
`sourceHandle` if present, else `targetHandle`, else the source id.
(`Option` models key absence; flows carrying an explicit JSON `null`
handle are outside this embedding.) -/
def get_output_handle_name (edges : List PEdge)
    (source_node_id target_node_id : String) : String :=
  match edges.find? (fun e =>
      decide (e.source = source_node_id ∧ e.target = target_node_id)) with
  | some e => e.sourceHandle.getD (e.targetHandle.getD source_node_id)
  | none => source_node_id

/-- The first loop of `_prepare_node_input`: bind each upstream node's
recorded output (when not `None`) under its handle name. -/
def prepare_handle_inputs {V : Type} (edges : List PEdge)
    (node_outputs : String → Option V) (node_id : String) : List (String × V) :=
  (edge_map_inputs edges node_id).foldl
    (fun acc src =>
      match node_outputs src with
      | some out => pySet (get_output_handle_name edges src node_id) out acc
      | none => acc) []

/-- `_prepare_node_input`: handle-bound inputs, then
`input_data.update(execution_context.global_variables)`. -/
def prepare_node_input {V : Type} (edges : List PEdge)
    (node_outputs : String → Option V) (global_variables : List (String × V))
    (node_id : String) : List (String × V) :=
  pyUpdate (prepare_handle_inputs edges node_outputs node_id) global_variables

/-- `node_map[node_id].get('type')`; executor construction validates that
node ids are unique, so the first match is the only one. -/
def node_type_of (nodes : List PNode) (node_id : String) : String :=
  match nodes.find? (fun n => decide (n.id = node_id)) with
  | some n => n.ntype
  | none => ""

/-- The `output_nodes` list of `_determine_final_result`: nodes of the
execution order with no outgoing edges. -/
def output_node_ids (edges : List PEdge) (execution_order : List String) :
    List String :=
  execution_order.filter (fun nid => decide (edge_map_outputs edges nid = []))

inductive FinalResult (V : Type)
  | one : Option V → FinalResult V
  | many : List (String × Option V) → FinalResult V
deriving DecidableEq

/-- `_determine_final_result`: a single terminal node's output; a map for
several terminal nodes; otherwise (no terminal node, only possible when
the order is empty) the display-results / last-node / `None` fallbacks. -/
def determine_final_result {V : Type} (nodes : List PNode) (edges : List PEdge)
    (execution_order : List String) (node_outputs : String → Option V) :
    FinalResult V :=
  match output_node_ids edges execution_order with
  | [n] => .one (node_outputs n)
  | [] =>
    match (execution_order.filter (fun nid =>
        decide (node_type_of nodes nid = "maxdp_display_results"))).getLast? with
    | some d => .one (node_outputs d)
    | none =>
      match execution_order.getLast? with
      | some lastn => .one (node_outputs lastn)
      | none => .one none
  | more => .many (more.map fun nid => (nid, node_outputs nid))

/-! ### C5: global variables versus handle-bound inputs -/

def exEdges5 : List PEdge := [⟨"u", "n", some "x", none⟩]

def exOutputs5 : String → Option Nat := fun s => if s = "u" then some 1 else none

/-- C5 counterexample: upstream node `u` feeds node `n` under handle
`"x"` with recorded output `1`, and `global_variables` also binds
`"x" ↦ 2`; `_prepare_node_input` ends with
`input_data.update(global_variables)`, so `in_map["x"]` is the global
value `2`, not the upstream output `1` — the dict update overwrites the
handle-bound key. -/
theorem C5_counterexample :
    exOutputs5 "u" = some 1 ∧
      get_output_handle_name exEdges5 "u" "n" = "x" ∧
      pyLookup "x" (prepare_node_input exEdges5 exOutputs5 [("x", 2)] "n") = some 2 ∧
      pyLookup "x" (prepare_node_input exEdges5 exOutputs5 [("x", 2)] "n") ≠ some 1 :=
  ⟨rfl, rfl, by decide, by decide⟩

/-- C5 amended: `global_variables` are merged into `in_map` last and DO
overwrite handle-bound keys: for every key, the prepared input holds the
global value when the key occurs in `global_variables`, and the
handle-bound upstream output otherwise. -/
theorem C5_amended {V : Type} (edges : List PEdge)
    (node_outputs : String → Option V) (global_variables : List (String × V))
    (node_id : String) (hg : (global_variables.map Prod.fst).Nodup) (k : String) :
    pyLookup k (prepare_node_input edges node_outputs global_variables node_id) =
      ((pyLookup k global_variables).rec
        (pyLookup k (prepare_handle_inputs edges node_outputs node_id))
        (fun v => some v) : Option V) :=
  pyLookup_pyUpdate k _ global_variables hg

/-- Witness for the amended C5. -/
theorem C5_amended_witness :
    pyLookup "x" (prepare_node_input exEdges5 exOutputs5 [("x", 2)] "n") =
      ((pyLookup "x" [("x", 2)]).rec
        (pyLookup "x" (prepare_handle_inputs exEdges5 exOutputs5 "n"))
        (fun v => some v) : Option Nat) :=
  C5_amended exEdges5 exOutputs5 [("x", 2)] "n" (by decide) "x"

/-! ### C6: final-result precedence -/

def exNodes6 : List PNode :=
  [⟨"A", "maxdp_table_reader"⟩, ⟨"B", "maxdp_display_results"⟩,
    ⟨"C", "maxdp_table_writer"⟩]

def exEdges6 : List PEdge := [⟨"A", "B", none, none⟩, ⟨"A", "C", none, none⟩]

def exOrder6 : List String := ["A", "B", "C"]

def exOutputs6 : String → Option Nat := fun nid =>
  if nid = "A" then some 0 else if nid = "B" then some 1 else
    if nid = "C" then some 2 else none

/-- C6 counterexample: a flow with two terminal nodes, one of which is a
`maxdp_display_results` node.  The claim's precedence would return the
display node's output; `_determine_final_result` instead returns the
terminal-id → value map whenever there are two or more terminal nodes —
the display-results branch is only reached when there is no terminal node
at all, and the outputs need not be distinct for the map to be built. -/
theorem C6_counterexample :
    node_type_of exNodes6 "B" = "maxdp_display_results" ∧
      output_node_ids exEdges6 exOrder6 = ["B", "C"] ∧
      determine_final_result exNodes6 exEdges6 exOrder6 exOutputs6 =
        .many [("B", some 1), ("C", some 2)] ∧
      determine_final_result exNodes6 exEdges6 exOrder6 exOutputs6 ≠
        .one (exOutputs6 "B") :=
  ⟨rfl, by decide, by decide, by decide⟩

/-- C6 amended: the actual precedence is: exactly one node without
outgoing edges → its output; two or more → the map `terminal_id → value`,
regardless of `display_results` nodes and of whether the outputs are
distinct.  For every nonempty, duplicate-free execution order that
respects the edges (as produced by `topological_sort`), at least one
terminal node exists, so the `display_results` and last-node fallbacks
are unreachable. -/
theorem C6_amended {V : Type} (nodes : List PNode) (edges : List PEdge)
    (execution_order : List String) (node_outputs : String → Option V)
    (hne : execution_order ≠ []) (hnodup : execution_order.Nodup)
    (hcl : ∀ e ∈ edges, e.source ∈ execution_order →
      e.target ∈ execution_order ∧
        execution_order.indexOf e.source < execution_order.indexOf e.target) :
    output_node_ids edges execution_order ≠ [] ∧
      (∀ n, output_node_ids edges execution_order = [n] →
        determine_final_result nodes edges execution_order node_outputs =
          .one (node_outputs n)) ∧
      (2 ≤ (output_node_ids edges execution_order).length →
        determine_final_result nodes edges execution_order node_outputs =
          .many ((output_node_ids edges execution_order).map
            fun nid => (nid, node_outputs nid))) := by
  refine ⟨?_, ?_, ?_⟩
  · -- the last node of the order has no outgoing edges
    have hlast : execution_order.getLast hne ∈ output_node_ids edges execution_order := by
      rw [output_node_ids, List.mem_filter, decide_eq_true_eq]
      refine ⟨List.getLast_mem hne, ?_⟩
      by_contra hout
      obtain ⟨t, ht⟩ := List.exists_mem_of_ne_nil _ hout
      rw [edge_map_outputs, List.mem_map] at ht
      obtain ⟨e, hef, het⟩ := ht
      rw [List.mem_filter, decide_eq_true_eq] at hef
      obtain ⟨he, hes⟩ := hef
      obtain ⟨htmem, hidx⟩ := hcl e he (hes ▸ List.getLast_mem hne)
      rw [hes] at hidx
      have hlt := List.indexOf_lt_length.2 htmem
      -- the last element sits at index `length - 1`
      have hlen : 0 < execution_order.length := List.length_pos.2 hne
      have hgl : execution_order.getLast hne =
          execution_order[execution_order.length - 1] :=
        List.getLast_eq_getElem execution_order hne
      have hixlast : execution_order.indexOf (execution_order.getLast hne) =
          execution_order.length - 1 := by
        have hmemlast := List.getLast_mem hne
        have hix := List.indexOf_lt_length.2 hmemlast
        by_contra hneq
        have hixlt : execution_order.indexOf (execution_order.getLast hne) <
            execution_order.length - 1 := by omega
        have h1 : execution_order.get ⟨execution_order.indexOf
            (execution_order.getLast hne), by omega⟩ = execution_order.getLast hne :=
          List.indexOf_get (by omega)
        have h2 : execution_order.get ⟨execution_order.length - 1, by omega⟩ =
            execution_order.getLast hne := by
          rw [List.get_eq_getElem]
          exact hgl.symm
        have hfin := (List.Nodup.get_inj_iff hnodup).1 (h1.trans h2.symm)
        rw [Fin.mk_eq_mk] at hfin
        omega
      omega
    exact List.ne_nil_of_mem hlast
  · intro n hs
    rw [determine_final_result, hs]
  · intro h2
    rw [determine_final_result]
    rcases hs : output_node_ids edges execution_order with _ | ⟨a, _ | ⟨b, t⟩⟩
    · rw [hs] at h2
      simp at h2
    · rw [hs] at h2
      simp at h2
    · rfl

/-! ## Sink nodes (`maxdp_sinks.py`)

A `pandas.DataFrame` is modelled as an ordered table value: column
names, dtypes and rows in order.  The sinks only read the frame (for
logging, SQL emission, serialization or notification payloads) and
return the extracted object itself, so table equality captures "same
column names, dtypes, row count and row order". -/

inductive Cell
  | cint : Int → Cell
  | cstr : String → Cell
  | cbool : Bool → Cell
  | cnull : Cell
deriving DecidableEq

structure Table where
  colNames : List String
  dtypes : List String
  rows : List (List Cell)
deriving DecidableEq

/-- A Python value as it appears in node inputs and configs. -/
inductive PyVal
  | vtable : Table → PyVal
  | vstr : String → PyVal
  | vint : Int → PyVal
  | vbool : Bool → PyVal
  | vlist : List PyVal → PyVal
  | vdict : List (String × PyVal) → PyVal
  | vnone : PyVal

/-- Python truthiness for the values a sink config can hold. -/
def truthy : PyVal → Bool
  | .vtable t => ¬ t.rows.isEmpty
  | .vstr s => ¬ s.isEmpty
  | .vint i => i ≠ 0
  | .vbool b => b
  | .vlist l => ¬ l.isEmpty
  | .vdict d => ¬ d.isEmpty
  | .vnone => false

/-- `_get_input_dataframe` (identical in all five sinks): the first
`DataFrame` value in dict iteration order, else `ValueError`. -/
def get_input_dataframe : List (String × PyVal) → Except String Table
  | [] => .error "No DataFrame found in input data"
  | (_, .vtable t) :: _ => .ok t
  | _ :: rest => get_input_dataframe rest

/-- Config lookup `self.node_config.get(key)`. -/
def cfgGet (node_config : List (String × PyVal)) (key : String) : Option PyVal :=
  pyLookup key node_config

/-- `node_config.get(key, default)`. -/
def cfgGetD (node_config : List (String × PyVal)) (key : String)
    (dflt : PyVal) : PyVal :=
  (pyLookup key node_config).getD dflt

/-- `TableWriterNode.invoke`: extract the frame, require a truthy
`table_name`, check write permission (always granted), emit `to_sql`
(external side effect), return the input frame. -/
def tableWriterInvoke (node_config input : List (String × PyVal)) :
    Except String Table :=
  match get_input_dataframe input with
  | .error e => .error e
  | .ok df =>
    if truthy (cfgGetD node_config "table_name" .vnone) then .ok df
    else .error "table_name is required"

/-- `FileWriterNode.invoke`: require a truthy `file_path` and a supported
`file_format` (default `csv`), write the file (external), return the
input frame. -/
def fileWriterInvoke (node_config input : List (String × PyVal)) :
    Except String Table :=
  match get_input_dataframe input with
  | .error e => .error e
  | .ok df =>
    if truthy (cfgGetD node_config "file_path" .vnone) then
      match cfgGetD node_config "file_format" (.vstr "csv") with
      | .vstr "csv" => .ok df
      | .vstr "json" => .ok df
      | .vstr "excel" => .ok df
      | .vstr "parquet" => .ok df
      | _ => .error "Unsupported file format"
    else .error "file_path is required"

/-- Uppercasing of the configured HTTP method (`.upper()`). -/
def pyUpper (s : String) : String := s.toUpper

/-- `APIRequestNode.invoke`: require a truthy `api_url`, a supported
`data_format` (default `json`) and method `POST`/`PUT` after upcasing,
send the request (external), return the input frame. -/
def apiRequestInvoke (node_config input : List (String × PyVal)) :
    Except String Table :=
  match get_input_dataframe input with
  | .error e => .error e
  | .ok df =>
    if truthy (cfgGetD node_config "api_url" .vnone) then
      match cfgGetD node_config "data_format" (.vstr "json") with
      | .vstr "json" =>
        match cfgGetD node_config "method" (.vstr "POST") with
        | .vstr m =>
          if pyUpper m = "POST" ∨ pyUpper m = "PUT" then .ok df
          else .error "Unsupported HTTP method"
        | _ => .error "Unsupported HTTP method"
      | .vstr "csv" =>
        match cfgGetD node_config "method" (.vstr "POST") with
        | .vstr m =>
          if pyUpper m = "POST" ∨ pyUpper m = "PUT" then .ok df
          else .error "Unsupported HTTP method"
        | _ => .error "Unsupported HTTP method"
      | _ => .error "Unsupported data format"
    else .error "api_url is required"

/-- `DisplayResultsNode.invoke`: log summaries of the frame and return it;
no config key is required. -/
def displayResultsInvoke (_node_config input : List (String × PyVal)) :
    Except String Table :=
  match get_input_dataframe input with
  | .error e => .error e
  | .ok df => .ok df

/-- `SendNotificationNode.invoke`: dispatch on `notification_type`
(default `email`); email requires a truthy `to_emails`, webhook a truthy
`webhook_url`; send (external), return the input frame. -/
def sendNotificationInvoke (node_config input : List (String × PyVal)) :
    Except String Table :=
  match get_input_dataframe input with
  | .error e => .error e
  | .ok df =>
    match cfgGetD node_config "notification_type" (.vstr "email") with
    | .vstr "email" =>
      if truthy (cfgGetD node_config "to_emails" (.vlist [])) then .ok df
      else .error "to_emails is required for email notification"
    | .vstr "webhook" =>
      if truthy (cfgGetD node_config "webhook_url" .vnone) then .ok df
      else .error "webhook_url is required for webhook notification"
    | _ => .error "Unsupported notification type"

/-- C7: every sink node (`table_writer`, `file_writer`, `api_request`,
`display_results`, `send_notification`) is pass-through.  Whenever the
input map contains a table (its first `DataFrame` value, as
`_get_input_dataframe` extracts it), any successful `invoke` returns
exactly that table value — `Table` equality is componentwise, so column
names, dtypes, row count and row order are all preserved — and
`DisplayResultsNode.invoke`, which requires no config key, always
succeeds.  Config errors surface as exceptions, never as a modified
table. -/
theorem C7_sinks_pass_through (node_config input : List (String × PyVal))
    (t : Table) (hin : get_input_dataframe input = .ok t) :
    (∀ out, tableWriterInvoke node_config input = .ok out → out = t) ∧
      (∀ out, fileWriterInvoke node_config input = .ok out → out = t) ∧
      (∀ out, apiRequestInvoke node_config input = .ok out → out = t) ∧
      (∀ out, sendNotificationInvoke node_config input = .ok out → out = t) ∧
      displayResultsInvoke node_config input = .ok t := by
  refine ⟨?_, ?_, ?_, ?_, ?_⟩
  · intro out hout
    rw [tableWriterInvoke, hin] at hout
    repeat' split at hout
    all_goals simp_all
  · intro out hout
    rw [fileWriterInvoke, hin] at hout
    repeat' split at hout
    all_goals simp_all
  · intro out hout
    rw [apiRequestInvoke, hin] at hout
    repeat' split at hout
    all_goals simp_all
  · intro out hout
    rw [sendNotificationInvoke, hin] at hout
    repeat' split at hout
    all_goals simp_all
  · rw [displayResultsInvoke, hin]

def exTable7 : Table :=
  ⟨["id", "name"], ["int64", "object"],
    [[.cint 1, .cstr "x"], [.cint 2, .cstr "y"]]⟩

def exInput7 : List (String × PyVal) := [("upstream", .vtable exTable7)]

/-- Witness for C7 on a concrete two-row table. -/
theorem C7_witness :
    (∀ out, tableWriterInvoke [("table_name", .vstr "t")] exInput7 = .ok out →
        out = exTable7) ∧
      (∀ out, fileWriterInvoke [("table_name", .vstr "t")] exInput7 = .ok out →
        out = exTable7) ∧
      (∀ out, apiRequestInvoke [("table_name", .vstr "t")] exInput7 = .ok out →
        out = exTable7) ∧
      (∀ out, sendNotificationInvoke [("table_name", .vstr "t")] exInput7 = .ok out →
        out = exTable7) ∧
      displayResultsInvoke [("table_name", .vstr "t")] exInput7 = .ok exTable7 :=
  C7_sinks_pass_through [("table_name", .vstr "t")] exInput7 exTable7 (by decide)

/-- Witness for the amended C6 on the concrete two-sink flow. -/
theorem C6_amended_witness :
    output_node_ids exEdges6 exOrder6 ≠ [] ∧
      (∀ n, output_node_ids exEdges6 exOrder6 = [n] →
        determine_final_result exNodes6 exEdges6 exOrder6 exOutputs6 =
          .one (exOutputs6 n)) ∧
      (2 ≤ (output_node_ids exEdges6 exOrder6).length →
        determine_final_result exNodes6 exEdges6 exOrder6 exOutputs6 =
          .many ((output_node_ids exEdges6 exOrder6).map
            fun nid => (nid, exOutputs6 nid))) :=
  C6_amended exNodes6 exEdges6 exOrder6 exOutputs6 (by decide) (by decide) (by decide)

/-! ## Worker Manager (`maxdp_worker_manager.py`)

`get_or_create_worker`, `_ensure_capacity`, `cleanup_inactive_workers`,
`force_remove_worker`, `clear_all_workers` and `get_manager_stats` all run
under `self.worker_lock`, and the awaited helpers contain no interleaving
point, so concurrent calls execute as an interleaving-free sequence of
whole operations; the model is that serialized state machine.  Executor
objects are identified by numbers, timestamps by naturals, and
`total_execution_time` (a float only ever incremented by the literal
`0.0`) by exact rationals. -/

structure WorkerInfo where
  executor : Nat
  created_at : Nat
  last_used : Nat
  execution_count : Nat
  total_execution_time : ℚ
deriving DecidableEq

/-- `WorkerInfo.update_usage(execution_time=0.0)`.  The execution time is
an explicit argument here; every call site in the source calls
`update_usage()` and therefore passes the default `0.0`. -/
def WorkerInfo.update_usage (w : WorkerInfo) (now : Nat)
    (execution_time : ℚ) : WorkerInfo :=
  { w with last_used := now,
           execution_count := w.execution_count + 1,
           total_execution_time := w.total_execution_time + execution_time }

/-- `avg_execution_time` from `WorkerInfo.get_stats`. -/
def WorkerInfo.avg_execution_time (w : WorkerInfo) : ℚ :=
  w.total_execution_time / (max w.execution_count 1 : ℚ)

structure ManagerState where
  active_workers : List (String × WorkerInfo)
deriving DecidableEq

/-- `min(self.active_workers.keys(), key=...last_used)`: Python `min`
keeps the earliest element among equals, so the fold replaces the
accumulator only on strictly smaller `last_used`. -/
def minByLastUsed : List (String × WorkerInfo) → Option (String × WorkerInfo)
  | [] => none
  | x :: xs =>
    some (xs.foldl (fun acc y => if y.2.last_used < acc.2.last_used then y else acc) x)

/-- `_ensure_capacity`: evict the least-recently-used entry when the cache
has reached `MAX_ACTIVE_APIS` entries.  `min` over an empty dict raises
(only possible when the limit is `0`). -/
def ensure_capacity (maxW : Nat) (cache : List (String × WorkerInfo)) :
    Except String (List (String × WorkerInfo)) :=
  if maxW ≤ cache.length then
    match minByLastUsed cache with
    | none => .error "min() arg is an empty sequence"
    | some km => .ok (cache.filter (fun p => decide (p.1 ≠ km.1)))
  else .ok cache

inductive AcquireResult
  | hit : Nat → AcquireResult
  | created : Nat → AcquireResult
  | failed : String → AcquireResult
deriving DecidableEq

/-- `get_or_create_worker`: on a cache hit, `update_usage()` and return
the cached executor; on a miss, ensure capacity, build a `FlowExecutor`
(`build` is the outcome of `_create_new_worker`) and insert the new
entry.  A raised exception propagates with the state reached so far. -/
def get_or_create_worker (maxW : Nat) (api_id : String) (now : Nat)
    (build : Except String Nat) (s : ManagerState) :
    AcquireResult × ManagerState :=
  match pyLookup api_id s.active_workers with
  | some w =>
    (.hit w.executor, ⟨pySet api_id (w.update_usage now 0) s.active_workers⟩)
  | none =>
    match ensure_capacity maxW s.active_workers with
    | .error msg => (.failed msg, s)
    | .ok cache' =>
      match build with
      | .error msg => (.failed msg, ⟨cache'⟩)
      | .ok ex => (.created ex, ⟨cache' ++ [(api_id, ⟨ex, now, now, 0, 0⟩)]⟩)

/-- `cleanup_inactive_workers`: drop every entry idle longer than the
TTL. -/
def cleanup_inactive_workers (ttl now : Nat) (s : ManagerState) : ManagerState :=
  ⟨s.active_workers.filter (fun p => decide (¬ ttl < now - p.2.last_used))⟩

/-- `force_remove_worker`. -/
def force_remove_worker (api_id : String) (s : ManagerState) :
    Bool × ManagerState :=
  match pyLookup api_id s.active_workers with
  | some _ => (true, ⟨s.active_workers.filter (fun p => decide (p.1 ≠ api_id))⟩)
  | none => (false, s)

/-- `clear_all_workers`. -/
def clear_all_workers (_s : ManagerState) : ManagerState := ⟨[]⟩

structure ManagerStats where
  total_workers : Nat
  total_executions : Nat
  total_execution_time : ℚ
deriving DecidableEq

/-- The numeric fields of `get_manager_stats`. -/
def get_manager_stats (s : ManagerState) : ManagerStats :=
  ⟨s.active_workers.length,
    (s.active_workers.map (fun p => p.2.execution_count)).sum,
    (s.active_workers.map (fun p => p.2.total_execution_time)).sum⟩

/-- The operations of the serialized Worker Manager.  `hclock` states
that the wall clock never runs backwards relative to recorded creation
times. -/
inductive MStep (maxW : Nat) : ManagerState → ManagerState → Prop
  | acquire (api_id : String) (now : Nat) (build : Except String Nat)
      (s : ManagerState)
      (hclock : ∀ p ∈ s.active_workers, p.2.created_at ≤ now) :
      MStep maxW s (get_or_create_worker maxW api_id now build s).2
  | cleanup (ttl now : Nat) (s : ManagerState) :
      MStep maxW s (cleanup_inactive_workers ttl now s)
  | force_remove (api_id : String) (s : ManagerState) :
      MStep maxW s (force_remove_worker api_id s).2
  | clear_all (s : ManagerState) : MStep maxW s (clear_all_workers s)

/-- States reachable from the freshly initialized manager. -/
def MReachable (maxW : Nat) (s : ManagerState) : Prop :=
  Relation.ReflTransGen (MStep maxW) ⟨[]⟩ s

theorem pyLookup_eq_none_iff {V : Type} (k : String) (d : List (String × V)) :
    pyLookup k d = none ↔ k ∉ d.map Prod.fst := by
  induction d with
  | nil => simp [pyLookup]
  | cons hd tl ih =>
    obtain ⟨k₀, v₀⟩ := hd
    by_cases h : k₀ = k
    · subst h
      simp [pyLookup]
    · have : ¬ k = k₀ := fun he => h he.symm
      simp [pyLookup, h, ih, this]

theorem pyLookup_some_mem {V : Type} (k : String) (v : V) (d : List (String × V))
    (h : pyLookup k d = some v) : (k, v) ∈ d := by
  induction d with
  | nil => simp [pyLookup] at h
  | cons hd tl ih =>
    obtain ⟨k₀, v₀⟩ := hd
    by_cases h0 : k₀ = k
    · subst h0
      rw [pyLookup, if_pos rfl] at h
      cases h
      simp
    · rw [pyLookup, if_neg h0] at h
      exact List.mem_cons_of_mem _ (ih h)

theorem mem_pySet {V : Type} (q : String × V) (k : String) (v : V)
    (d : List (String × V)) (h : q ∈ pySet k v d) : q ∈ d ∨ q = (k, v) := by
  induction d with
  | nil =>
    simp [pySet] at h
    exact Or.inr h
  | cons hd tl ih =>
    obtain ⟨k₀, v₀⟩ := hd
    by_cases h0 : k₀ = k
    · subst h0
      rw [pySet, if_pos rfl] at h
      rcases List.mem_cons.1 h with h | h
      · exact Or.inr h
      · exact Or.inl (List.mem_cons_of_mem _ h)
    · rw [pySet, if_neg h0] at h
      rcases List.mem_cons.1 h with h | h
      · exact Or.inl (h ▸ List.mem_cons_self _ _)
      · rcases ih h with h | h
        · exact Or.inl (List.mem_cons_of_mem _ h)
        · exact Or.inr h

theorem pySet_keys {V : Type} (k : String) (v : V) (d : List (String × V)) :
    (pySet k v d).map Prod.fst =
      if k ∈ d.map Prod.fst then d.map Prod.fst else d.map Prod.fst ++ [k] := by
  induction d with
  | nil => simp [pySet]
  | cons hd tl ih =>
    obtain ⟨k₀, v₀⟩ := hd
    by_cases h0 : k₀ = k
    · subst h0
      simp [pySet]
    · have : ¬ k = k₀ := fun he => h0 he.symm
      by_cases hm : k ∈ tl.map Prod.fst <;>
        simp [pySet, h0, this, hm, ih]

theorem pySet_length {V : Type} (k : String) (v : V) (d : List (String × V)) :
    (pySet k v d).length =
      if k ∈ d.map Prod.fst then d.length else d.length + 1 := by
  have := congrArg List.length (pySet_keys k v d)
  simp only [List.length_map] at this
  rw [this]
  by_cases hm : k ∈ d.map Prod.fst <;> simp [hm]

theorem pyLookup_append {V : Type} (k : String) (d₁ d₂ : List (String × V)) :
    pyLookup k (d₁ ++ d₂) =
      ((pyLookup k d₁).rec (pyLookup k d₂) (fun v => some v) : Option V) := by
  induction d₁ with
  | nil => simp [pyLookup]
  | cons hd tl ih =>
    obtain ⟨k₀, v₀⟩ := hd
    by_cases h0 : k₀ = k
    · subst h0
      simp [pyLookup]
    · simp [pyLookup, h0, ih]

/-- Specification of the Python `min(..., key=last_used)` fold on a cache
whose entries are in nondecreasing `created_at` order: the result is a
member realizing the minimum `last_used`, and among ties it has the least
`created_at` (being the earliest inserted). -/
theorem minByLastUsed_spec (x : String × WorkerInfo)
    (xs : List (String × WorkerInfo))
    (hpw : List.Pairwise
      (fun p q => p.2.created_at ≤ q.2.created_at) (x :: xs)) :
    ∃ m, minByLastUsed (x :: xs) = some m ∧ m ∈ x :: xs ∧
      ∀ p ∈ x :: xs, m.2.last_used ≤ p.2.last_used ∧
        (p.2.last_used = m.2.last_used → m.2.created_at ≤ p.2.created_at) := by
  rw [minByLastUsed]
  induction xs generalizing x with
  | nil =>
    refine ⟨x, rfl, by simp, ?_⟩
    intro p hp
    rcases List.mem_cons.1 hp with rfl | hp
    · exact ⟨le_refl _, fun _ => le_refl _⟩
    · simp at hp
  | cons y ys ih =>
    have hxy : x.2.created_at ≤ y.2.created_at :=
      (List.pairwise_cons.1 hpw).1 y (by simp)
    set x' := if y.2.last_used < x.2.last_used then y else x with hx'
    have hpw' : List.Pairwise
        (fun p q => p.2.created_at ≤ q.2.created_at) (x' :: ys) := by
      rw [List.pairwise_cons]
      constructor
      · intro q hq
        rw [hx']
        split
        · exact (List.pairwise_cons.1 (List.pairwise_cons.1 hpw).2).1 q hq
        · exact (List.pairwise_cons.1 hpw).1 q (by simp [hq])
      · exact (List.pairwise_cons.1 (List.pairwise_cons.1 hpw).2).2
    obtain ⟨m, hm, hmmem, hmin⟩ := ih x' hpw'
    rw [List.foldl_cons]
    refine ⟨m, hm, ?_, ?_⟩
    · rcases List.mem_cons.1 hmmem with rfl | hmem
      · rw [hx']
        split
        · simp
        · simp
      · simp [hmem]
    · intro p hp
      rcases List.mem_cons.1 hp with rfl | hp
      · -- p = x
        by_cases hyx : y.2.last_used < p.2.last_used
        · have hx'y : x' = y := by rw [hx']; exact if_pos hyx
          have h1 := hmin x' (by simp)
          rw [hx'y] at h1
          exact ⟨le_trans h1.1 (le_of_lt hyx), fun he => by omega⟩
        · have hx'x : x' = p := by rw [hx']; exact if_neg hyx
          have h1 := hmin x' (by simp)
          rw [hx'x] at h1
          exact h1
      · rcases List.mem_cons.1 hp with rfl | hp
        · -- p = y
          by_cases hyx : p.2.last_used < x.2.last_used
          · have hx'y : x' = p := by rw [hx']; exact if_pos hyx
            have h1 := hmin x' (by simp)
            rw [hx'y] at h1
            exact h1
          · have hx'x : x' = x := by rw [hx']; exact if_neg hyx
            have h1 := hmin x' (by simp)
            rw [hx'x] at h1
            refine ⟨by omega, fun he => ?_⟩
            -- tie through x: m.last = p.last, x.last ≤ p.last, m ≤ x
            have hxm : x.2.last_used = m.2.last_used := by omega
            exact le_trans (h1.2 hxm) hxy
        · exact hmin p (by simp [hp])

/-- Invariant of every reachable manager state: unique cache keys, the
size bound, entries in insertion (= nondecreasing `created_at`) order,
and zero accumulated execution time. -/
structure MInv (maxW : Nat) (s : ManagerState) : Prop where
  nodup_keys : (s.active_workers.map Prod.fst).Nodup
  size_le : s.active_workers.length ≤ maxW
  created_sorted : List.Pairwise
    (fun p q => p.2.created_at ≤ q.2.created_at) s.active_workers
  zero_time : ∀ p ∈ s.active_workers, p.2.total_execution_time = 0

theorem pairwise_created_pySet (d : List (String × WorkerInfo)) (k : String)
    (w w' : WorkerInfo) (hlk : pyLookup k d = some w)
    (hca : w'.created_at = w.created_at)
    (hpw : List.Pairwise (fun p q => p.2.created_at ≤ q.2.created_at) d) :
    List.Pairwise (fun p q => p.2.created_at ≤ q.2.created_at) (pySet k w' d) := by
  induction d with
  | nil => simp [pySet]
  | cons hd tl ih =>
    obtain ⟨k₀, v₀⟩ := hd
    rw [List.pairwise_cons] at hpw
    by_cases h0 : k₀ = k
    · subst h0
      rw [pyLookup, if_pos rfl] at hlk
      cases hlk
      rw [pySet, if_pos rfl, List.pairwise_cons]
      refine ⟨fun q hq => ?_, hpw.2⟩
      have := hpw.1 q hq
      simp only at this ⊢
      omega
    · rw [pyLookup, if_neg h0] at hlk
      rw [pySet, if_neg h0, List.pairwise_cons]
      refine ⟨fun q hq => ?_, ih hlk hpw.2⟩
      rcases mem_pySet q k w' tl hq with hq | rfl
      · exact hpw.1 q hq
      · have := hpw.1 (k, w) (pyLookup_some_mem k w tl hlk)
        simp only at this ⊢
        omega

theorem filter_inv_parts (maxW : Nat) (d : List (String × WorkerInfo))
    (p : String × WorkerInfo → Bool)
    (inv : MInv maxW ⟨d⟩) : MInv maxW ⟨d.filter p⟩ := by
  have hsub : List.Sublist (d.filter p) d := List.filter_sublist d
  exact ⟨(inv.nodup_keys).sublist (hsub.map Prod.fst),
    le_trans hsub.length_le inv.size_le,
    inv.created_sorted.sublist hsub,
    fun q hq => inv.zero_time q (hsub.subset hq)⟩

theorem acquire_preserves_inv (maxW : Nat) (api_id : String) (now : Nat)
    (build : Except String Nat) (s : ManagerState)
    (hclock : ∀ p ∈ s.active_workers, p.2.created_at ≤ now)
    (inv : MInv maxW s) :
    MInv maxW (get_or_create_worker maxW api_id now build s).2 := by
  rcases hlk : pyLookup api_id s.active_workers with _ | w
  · -- cache miss
    have hnk : api_id ∉ s.active_workers.map Prod.fst :=
      (pyLookup_eq_none_iff api_id s.active_workers).1 hlk
    have hens : ∀ cache', ensure_capacity maxW s.active_workers = .ok cache' →
        MInv maxW ⟨cache'⟩ ∧
          (cache'.length + 1 ≤ maxW) ∧
          api_id ∉ cache'.map Prod.fst := by
      intro cache' hok
      rw [ensure_capacity] at hok
      split at hok
      · -- at capacity: one entry evicted
        rcases hcache : s.active_workers with _ | ⟨x, xs⟩
        · rw [hcache] at hok
          simp [minByLastUsed] at hok
        · rw [hcache] at hok
          obtain ⟨m, hm, hmmem, _⟩ := minByLastUsed_spec x xs
            (hcache ▸ inv.created_sorted)
          rw [hm] at hok
          cases hok
          have hlt : ((x :: xs).filter (fun p => decide (p.1 ≠ m.1))).length <
              (x :: xs).length := by
            apply List.length_filter_lt_length_iff_exists.2
            exact ⟨m, hmmem, by simp⟩
          have hinv' : MInv maxW ⟨(x :: xs).filter (fun p => decide (p.1 ≠ m.1))⟩ :=
            filter_inv_parts maxW (x :: xs) _ (hcache ▸ inv)
          refine ⟨hinv', ?_, ?_⟩
          · have := inv.size_le
            rw [hcache] at this
            omega
          · intro hc
            rw [List.mem_map] at hc
            obtain ⟨q, hq, hq1⟩ := hc
            have : q ∈ x :: xs := (List.filter_sublist _).subset hq
            exact hnk (by rw [hcache]; exact List.mem_map.2 ⟨q, this, hq1⟩)
      · cases hok
        rename_i hlen
        refine ⟨inv, by omega, hnk⟩
    rcases hec : ensure_capacity maxW s.active_workers with msg | cache'
    · simp only [get_or_create_worker, hlk, hec]
      exact inv
    · obtain ⟨inv', hsz, hnk'⟩ := hens cache' hec
      rcases build with msg | ex
      · simp only [get_or_create_worker, hlk, hec]
        exact inv'
      · simp only [get_or_create_worker, hlk, hec]
        refine ⟨?_, ?_, ?_, ?_⟩
        · rw [List.map_append, List.nodup_append]
          exact ⟨inv'.nodup_keys, List.nodup_singleton _,
            fun a ha hb => by simp at hb; exact hnk' (hb ▸ ha)⟩
        · simp only [List.length_append, List.length_singleton]
          omega
        · rw [List.pairwise_append]
          refine ⟨inv'.created_sorted, List.pairwise_singleton _ _, ?_⟩
          intro q hq r hr
          simp only [List.mem_singleton] at hr
          subst hr
          have hqs : q ∈ s.active_workers := by
            have hok := hec
            rw [ensure_capacity] at hok
            split at hok
            · rcases hmm : minByLastUsed s.active_workers with _ | km
              · rw [hmm] at hok
                cases hok
              · rw [hmm] at hok
                cases hok
                exact (List.filter_sublist _).subset hq
            · cases hok
              exact hq
          exact hclock q hqs
        · intro q hq
          rcases List.mem_append.1 hq with hq | hq
          · have hqs : q ∈ s.active_workers := by
              have hok := hec
              rw [ensure_capacity] at hok
              split at hok
              · rcases hmm : minByLastUsed s.active_workers with _ | km
                · rw [hmm] at hok
                  cases hok
                · rw [hmm] at hok
                  cases hok
                  exact (List.filter_sublist _).subset hq
              · cases hok
                exact hq
            exact inv.zero_time q hqs
          · simp only [List.mem_singleton] at hq
            subst hq
            rfl
  · -- cache hit
    simp only [get_or_create_worker, hlk]
    have hmem : (api_id, w) ∈ s.active_workers := pyLookup_some_mem _ _ _ hlk
    have hkeymem : api_id ∈ s.active_workers.map Prod.fst :=
      List.mem_map.2 ⟨(api_id, w), hmem, rfl⟩
    refine ⟨?_, ?_, ?_, ?_⟩
    · rw [pySet_keys, if_pos hkeymem]
      exact inv.nodup_keys
    · rw [pySet_length, if_pos hkeymem]
      exact inv.size_le
    · exact pairwise_created_pySet _ _ _ _ hlk rfl inv.created_sorted
    · intro q hq
      rcases mem_pySet q _ _ _ hq with hq | rfl
      · exact inv.zero_time q hq
      · have h0 := inv.zero_time (api_id, w) hmem
        simp only [WorkerInfo.update_usage] at *
        rw [h0]
        norm_num

theorem mstep_inv {maxW : Nat} {s s' : ManagerState} (h : MStep maxW s s')
    (inv : MInv maxW s) : MInv maxW s' := by
  cases h with
  | acquire api_id now build s hclock =>
    exact acquire_preserves_inv maxW api_id now build s hclock inv
  | cleanup ttl now s => exact filter_inv_parts maxW s.active_workers _ inv
  | force_remove api_id s =>
    rcases hlk : pyLookup api_id s.active_workers with _ | w
    · simp only [force_remove_worker, hlk]
      exact inv
    · simp only [force_remove_worker, hlk]
      exact filter_inv_parts maxW s.active_workers _ inv
  | clear_all s =>
    exact ⟨by simp [clear_all_workers], by simp [clear_all_workers],
      by simp [clear_all_workers], by simp [clear_all_workers]⟩

theorem mreachable_inv {maxW : Nat} {s : ManagerState}
    (h : MReachable maxW s) : MInv maxW s := by
  induction h with
  | refl => exact ⟨by simp, by simp, by simp, by simp⟩
  | tail _ hstep ih => exact mstep_inv hstep ih

theorem filter_ne_key_length (d : List (String × WorkerInfo)) (ek : String)
    (ew : WorkerInfo) (hnd : (d.map Prod.fst).Nodup) (hmem : (ek, ew) ∈ d) :
    (d.filter (fun p => decide (p.1 ≠ ek))).length + 1 = d.length := by
  induction d with
  | nil => simp at hmem
  | cons hd tl ih =>
    obtain ⟨k₀, v₀⟩ := hd
    simp only [List.map_cons, List.nodup_cons] at hnd
    by_cases h0 : k₀ = ek
    · subst h0
      rw [List.filter_cons, if_neg (by simp)]
      have hall : tl.filter (fun p => decide (p.1 ≠ k₀)) = tl := by
        rw [List.filter_eq_self]
        intro q hq
        simp only [decide_eq_true_eq]
        intro hqk
        exact hnd.1 (hqk ▸ List.mem_map.2 ⟨q, hq, rfl⟩)
      rw [hall]
      simp
    · have hmem' : (ek, ew) ∈ tl := by
        rcases List.mem_cons.1 hmem with h | h
        · cases h
          exact absurd rfl h0
        · exact h
      rw [List.filter_cons, if_pos (by simpa using h0)]
      have hrec := ih hnd.2 hmem'
      simp only [List.length_cons]
      omega

/-- `_ensure_capacity` succeeds whenever the configured limit is at least
one; the remaining keys are a subset of the original keys. -/
theorem ensure_capacity_ok (maxW : Nat) (hmax : 1 ≤ maxW)
    (cache : List (String × WorkerInfo)) :
    ∃ cache', ensure_capacity maxW cache = .ok cache' ∧
      ∀ k, k ∈ cache'.map Prod.fst → k ∈ cache.map Prod.fst := by
  rw [ensure_capacity]
  split
  · rcases cache with _ | ⟨x, xs⟩
    · rename_i hle
      simp at hle
      omega
    · rw [minByLastUsed]
      refine ⟨_, rfl, fun k hk => ?_⟩
      rw [List.mem_map] at hk ⊢
      obtain ⟨q, hq, h1⟩ := hk
      exact ⟨q, (List.filter_sublist _).subset hq, h1⟩
  · exact ⟨cache, rfl, fun k hk => hk⟩

/-- Serialized run of several `get_or_create_worker` calls for one
`api_id` (each element of `ops` is the wall time and the
`_create_new_worker` outcome that call would see). -/
def acquireRun (maxW : Nat) (api_id : String) :
    List (Nat × Except String Nat) → ManagerState →
    (List AcquireResult × ManagerState)
  | [], s => ([], s)
  | op :: ops, s =>
    let r := get_or_create_worker maxW api_id op.1 op.2 s
    let rest := acquireRun maxW api_id ops r.2
    (r.1 :: rest.1, rest.2)

theorem acquireRun_hits (maxW : Nat) (api_id : String) :
    ∀ (ops : List (Nat × Except String Nat)) (s : ManagerState) (ex : Nat),
      (∃ w, pyLookup api_id s.active_workers = some w ∧ w.executor = ex) →
      (acquireRun maxW api_id ops s).1 =
          ops.map (fun _ => AcquireResult.hit ex) ∧
        ∃ w', pyLookup api_id
            (acquireRun maxW api_id ops s).2.active_workers = some w' ∧
          w'.executor = ex := by
  intro ops
  induction ops with
  | nil =>
    intro s ex h
    exact ⟨rfl, h⟩
  | cons op ops ih =>
    rintro s ex ⟨w, hlk, hex⟩
    rw [acquireRun]
    simp only [get_or_create_worker, hlk]
    have hlk' : pyLookup api_id
        (pySet api_id (w.update_usage op.1 0) s.active_workers) =
        some (w.update_usage op.1 0) := by
      rw [pyLookup_pySet, if_pos rfl]
    obtain ⟨hres, hw'⟩ := ih ⟨pySet api_id (w.update_usage op.1 0) s.active_workers⟩
      ex ⟨w.update_usage op.1 0, hlk', hex⟩
    refine ⟨?_, hw'⟩
    simp only [List.map_cons, hex]
    rw [← hres]

/-- C3: `get_or_create_worker` runs its whole body under
`self.worker_lock` and the awaited helpers contain no suspension point,
so concurrent acquires for one `api_id` execute as a serialized run.
Starting from any state in which `api_id` is absent, a run whose first
call's construction succeeds produces exactly one construction: the first
caller gets `created ex` and every later caller gets `hit ex` — the same
executor reference — regardless of the builds they would have performed.
A failed build (`_create_new_worker` raising) leaves no entry for
`api_id` in the cache. -/
theorem C3_single_construction (maxW : Nat) (api_id : String)
    (s : ManagerState) (hmax : 1 ≤ maxW)
    (habsent : pyLookup api_id s.active_workers = none)
    (now₁ ex : Nat) (ops : List (Nat × Except String Nat))
    (now : Nat) (msg : String) :
    (acquireRun maxW api_id ((now₁, .ok ex) :: ops) s).1 =
        .created ex :: ops.map (fun _ => AcquireResult.hit ex) ∧
      pyLookup api_id
        ((get_or_create_worker maxW api_id now (.error msg) s).2).active_workers =
        none := by
  obtain ⟨cache', hec, hkeys⟩ := ensure_capacity_ok maxW hmax s.active_workers
  have hnk : api_id ∉ s.active_workers.map Prod.fst :=
    (pyLookup_eq_none_iff api_id s.active_workers).1 habsent
  have hnk' : api_id ∉ cache'.map Prod.fst := fun hc => hnk (hkeys api_id hc)
  constructor
  · rw [acquireRun]
    simp only [get_or_create_worker, habsent, hec]
    have hlkin : pyLookup api_id
        (cache' ++ [(api_id, (⟨ex, now₁, now₁, 0, 0⟩ : WorkerInfo))]) =
        some ⟨ex, now₁, now₁, 0, 0⟩ := by
      rw [pyLookup_append, (pyLookup_eq_none_iff api_id cache').2 hnk']
      simp [pyLookup]
    obtain ⟨hres, _⟩ := acquireRun_hits maxW api_id ops
      ⟨cache' ++ [(api_id, ⟨ex, now₁, now₁, 0, 0⟩)]⟩ ex
      ⟨⟨ex, now₁, now₁, 0, 0⟩, hlkin, rfl⟩
    simp only [List.cons.injEq]
    exact ⟨trivial, hres⟩
  · simp only [get_or_create_worker, habsent, hec]
    exact (pyLookup_eq_none_iff api_id cache').2 hnk'

/-- C4: after every Worker Manager operation the cache holds at most
`MAX_ACTIVE_APIS` entries, and a successful insert at capacity evicts
exactly one entry: the one with minimum `last_used`, ties broken by
`created_at` (dict insertion order coincides with `created_at` order, and
Python's `min` keeps the earliest of equals). -/
theorem C4_capacity_and_lru (maxW : Nat) (s : ManagerState)
    (hreach : MReachable maxW s) (api_id : String) (now ex : Nat)
    (hmiss : pyLookup api_id s.active_workers = none)
    (hcap : s.active_workers.length = maxW) (hmax : 1 ≤ maxW) :
    (∀ s', MReachable maxW s' → s'.active_workers.length ≤ maxW) ∧
      ∃ ek ew, (ek, ew) ∈ s.active_workers ∧
        (∀ p ∈ s.active_workers, ew.last_used ≤ p.2.last_used) ∧
        (∀ p ∈ s.active_workers, p.2.last_used = ew.last_used →
          ew.created_at ≤ p.2.created_at) ∧
        (get_or_create_worker maxW api_id now (.ok ex) s).2.active_workers =
          s.active_workers.filter (fun p => decide (p.1 ≠ ek)) ++
            [(api_id, ⟨ex, now, now, 0, 0⟩)] ∧
        (get_or_create_worker maxW api_id now
          (.ok ex) s).2.active_workers.length = s.active_workers.length := by
  have inv := mreachable_inv hreach
  refine ⟨fun s' h => (mreachable_inv h).size_le, ?_⟩
  rcases hcache : s.active_workers with _ | ⟨x, xs⟩
  · rw [hcache] at hcap
    simp at hcap
    omega
  · obtain ⟨m, hm, hmmem, hmin⟩ := minByLastUsed_spec x xs
      (hcache ▸ inv.created_sorted)
    have hens : ensure_capacity maxW s.active_workers =
        .ok (s.active_workers.filter (fun p => decide (p.1 ≠ m.1))) := by
      rw [ensure_capacity, if_pos (by omega), hcache, hm]
    refine ⟨m.1, m.2, hmmem, fun p hp => (hmin p hp).1,
      fun p hp he => (hmin p hp).2 he, ?_, ?_⟩
    · rw [← hcache]
      simp only [get_or_create_worker, hmiss, hens]
    · rw [← hcache]
      simp only [get_or_create_worker, hmiss, hens]
      have hnd : (s.active_workers.map Prod.fst).Nodup := inv.nodup_keys
      have hflen := filter_ne_key_length s.active_workers m.1 m.2
        hnd (by rw [hcache]; exact hmmem)
      simp only [List.length_append, List.length_singleton]
      omega

/-- C10: in every reachable Worker Manager state every cache entry's
`total_execution_time` is `0.0` (and hence every `avg_execution_time`
and the manager-level `total_execution_time` statistic are `0`):
`update_usage` is only ever called as `update_usage()`, with the default
`execution_time=0.0`, and no release operation records elapsed time.  A
cache-hit acquisition bumps the entry's `execution_count` by one while
adding zero time, so `execution_count` counts cache-hit acquisitions,
not completed executions. -/
theorem C10_execution_time_stays_zero (maxW : Nat) (s : ManagerState)
    (hreach : MReachable maxW s) (api_id : String) (now : Nat)
    (build : Except String Nat) (w : WorkerInfo)
    (hhit : pyLookup api_id s.active_workers = some w) :
    (∀ p ∈ s.active_workers, p.2.total_execution_time = 0 ∧
      p.2.avg_execution_time = 0) ∧
      (get_manager_stats s).total_execution_time = 0 ∧
      (get_or_create_worker maxW api_id now build s).1 = .hit w.executor ∧
      pyLookup api_id
        (get_or_create_worker maxW api_id now build s).2.active_workers =
        some (w.update_usage now 0) ∧
      (w.update_usage now 0).execution_count = w.execution_count + 1 ∧
      (w.update_usage now 0).total_execution_time = w.total_execution_time := by
  have inv := mreachable_inv hreach
  refine ⟨?_, ?_, ?_, ?_, rfl, ?_⟩
  · intro p hp
    have h0 := inv.zero_time p hp
    refine ⟨h0, ?_⟩
    rw [WorkerInfo.avg_execution_time, h0, zero_div]
  · rw [get_manager_stats]
    apply List.sum_eq_zero
    intro x hx
    rw [List.mem_map] at hx
    obtain ⟨p, hp, hpx⟩ := hx
    rw [← hpx]
    exact inv.zero_time p hp
  · simp only [get_or_create_worker, hhit]
  · simp only [get_or_create_worker, hhit]
    rw [pyLookup_pySet, if_pos rfl]
  · simp [WorkerInfo.update_usage]

def exMgrS1 : ManagerState := ⟨[("w1", ⟨10, 0, 0, 0, 0⟩)]⟩

theorem exMgrS1_reachable : MReachable 1 exMgrS1 :=
  Relation.ReflTransGen.single
    (MStep.acquire "w1" 0 (.ok 10) ⟨[]⟩ (by simp))

/-- Witness for C3: three serialized acquires of an absent key. -/
theorem C3_witness :
    (acquireRun 2 "api9" ((0, .ok 7) :: [(1, .ok 8), (2, .error "boom")]) ⟨[]⟩).1 =
        .created 7 :: [(1, Except.ok 8), (2, Except.error "boom")].map
          (fun _ => AcquireResult.hit 7) ∧
      pyLookup "api9"
        ((get_or_create_worker 2 "api9" 5 (.error "db down") ⟨[]⟩).2).active_workers =
        none :=
  C3_single_construction 2 "api9" ⟨[]⟩ (by decide) (by decide) 0 7
    [(1, .ok 8), (2, .error "boom")] 5 "db down"

/-- Witness for C4: a capacity-1 manager evicting its only entry. -/
theorem C4_witness :
    (∀ s', MReachable 1 s' → s'.active_workers.length ≤ 1) ∧
      ∃ ek ew, (ek, ew) ∈ exMgrS1.active_workers ∧
        (∀ p ∈ exMgrS1.active_workers, ew.last_used ≤ p.2.last_used) ∧
        (∀ p ∈ exMgrS1.active_workers, p.2.last_used = ew.last_used →
          ew.created_at ≤ p.2.created_at) ∧
        (get_or_create_worker 1 "w2" 1 (.ok 20) exMgrS1).2.active_workers =
          exMgrS1.active_workers.filter (fun p => decide (p.1 ≠ ek)) ++
            [("w2", ⟨20, 1, 1, 0, 0⟩)] ∧
        (get_or_create_worker 1 "w2" 1
          (.ok 20) exMgrS1).2.active_workers.length =
          exMgrS1.active_workers.length :=
  C4_capacity_and_lru 1 exMgrS1 exMgrS1_reachable "w2" 1 20
    (by decide) (by decide) (by decide)

/-- Witness for C10 on a reachable one-entry state. -/
theorem C10_witness :
    (∀ p ∈ exMgrS1.active_workers, p.2.total_execution_time = 0 ∧
      p.2.avg_execution_time = 0) ∧
      (get_manager_stats exMgrS1).total_execution_time = 0 ∧
      (get_or_create_worker 1 "w1" 3 (.error "x") exMgrS1).1 =
        .hit (⟨10, 0, 0, 0, 0⟩ : WorkerInfo).executor ∧
      pyLookup "w1"
        (get_or_create_worker 1 "w1" 3 (.error "x") exMgrS1).2.active_workers =
        some ((⟨10, 0, 0, 0, 0⟩ : WorkerInfo).update_usage 3 0) ∧
      ((⟨10, 0, 0, 0, 0⟩ : WorkerInfo).update_usage 3 0).execution_count =
        (⟨10, 0, 0, 0, 0⟩ : WorkerInfo).execution_count + 1 ∧
      ((⟨10, 0, 0, 0, 0⟩ : WorkerInfo).update_usage 3 0).total_execution_time =
        (⟨10, 0, 0, 0, 0⟩ : WorkerInfo).total_execution_time :=
  C10_execution_time_stays_zero 1 exMgrS1 exMgrS1_reachable "w1" 3 (.error "x")
    ⟨10, 0, 0, 0, 0⟩ (by decide)

/-! ## Dispatch gateway (`maxdp_execute_router.py`)

`run_published_api` is modelled on its control flow: the published-API
lookup outcome, the active flag and the executor outcome are parameters;
the request-data parsing (`_parse_request_data`) is embedded in full.
`request.json()` is represented by the parse outcome `json_body`; the
`_metadata` sub-map (method, client ip, user agent, timestamp) is the
`meta` argument. -/

structure HttpRequest where
  method : String
  content_type : String
  query_params : List (String × PyVal)
  path_params : List (String × PyVal)
  json_body : Except String PyVal
  form_data : List (String × PyVal)

/-- Python's `token in content_type` substring test. -/
def strContains (ct token : String) : Bool :=
  decide (List.IsInfix token.toList ct.toList)

/-- `_parse_request_data`: query params, path params, then the decoded
body — a JSON object is merged, a non-object goes under `"body"`, and a
body that fails to parse is logged and skipped — then form data for the
two form content types, then the `_metadata` sub-map.  The function never
raises: all parse failures are swallowed. -/
def parse_request_data (req : HttpRequest) (meta : List (String × PyVal)) :
    List (String × PyVal) :=
  let d := pyUpdate [] req.query_params
  let d := pyUpdate d req.path_params
  let d :=
    if req.method = "POST" ∨ req.method = "PUT" ∨ req.method = "PATCH" then
      if strContains req.content_type "application/json" then
        match req.json_body with
        | .ok (.vdict entries) => pyUpdate d entries
        | .ok other => pySet "body" other d
        | .error _ => d
      else if strContains req.content_type "application/x-www-form-urlencoded" then
        pyUpdate d req.form_data
      else if strContains req.content_type "multipart/form-data" then
        pyUpdate d req.form_data
      else d
    else d
  pySet "_metadata" (.vdict meta) d

structure DispatchResult where
  status : Nat
  executed_with : Option (List (String × PyVal))

/-- `run_published_api`: 404 when no published API matches the path, 403
when it is inactive, otherwise parse the inputs, run the executor and
answer 200, mapping `FlowExecutionError` (and any unexpected exception)
to 500. -/
def run_published_api (api_found is_active : Bool) (req : HttpRequest)
    (meta : List (String × PyVal)) (exec_result : Except String PyVal) :
    DispatchResult :=
  if ¬ api_found then ⟨404, none⟩
  else if ¬ is_active then ⟨403, none⟩
  else
    match exec_result with
    | .ok _ => ⟨200, some (parse_request_data req meta)⟩
    | .error _ => ⟨500, some (parse_request_data req meta)⟩

def exMeta9 : List (String × PyVal) :=
  [("method", .vstr "POST"), ("client_ip", .vstr "10.0.0.1"),
    ("user_agent", .vstr "curl"), ("timestamp", .vstr "2026-10-12T00:00:00")]

def exReq9 : HttpRequest :=
  ⟨"POST", "application/json", [("q", .vstr "1")], [],
    .error "Expecting value: line 1 column 1 (char 0)", []⟩

/-- C9 counterexample: a POST whose JSON body is malformed is answered
with 200, not 400 — `_parse_request_data` logs the failure and the flow
is executed with the remaining inputs (here the query parameter and the
metadata sub-map only). -/
theorem C9_counterexample :
    (run_published_api true true exReq9 exMeta9 (.ok (.vstr "done"))).status = 200 ∧
      (run_published_api true true exReq9 exMeta9 (.ok (.vstr "done"))).status ≠ 400 ∧
      (run_published_api true true exReq9 exMeta9
          (.ok (.vstr "done"))).executed_with =
        some [("q", .vstr "1"), ("_metadata", .vdict exMeta9)] :=
  ⟨rfl, by decide, rfl⟩

/-- C9 amended: input-parsing failures never surface as 400 — no dispatch
path returns 400 at all (the statuses are 200, 403, 404 and 500).  A
request whose JSON body fails to parse is executed with the remaining
inputs: its parsed data coincides with that of the same request with no
body considered at all (method `GET`). -/
theorem C9_amended (api_found is_active : Bool) (req : HttpRequest)
    (meta : List (String × PyVal)) (exec_result : Except String PyVal)
    (msg : String) (hbody : req.json_body = .error msg)
    (hct : strContains req.content_type "application/json" = true) :
    (run_published_api api_found is_active req meta exec_result).status ≠ 400 ∧
      ((run_published_api api_found is_active req meta exec_result).status = 200 ∨
        (run_published_api api_found is_active req meta exec_result).status = 403 ∨
        (run_published_api api_found is_active req meta exec_result).status = 404 ∨
        (run_published_api api_found is_active req meta exec_result).status = 500) ∧
      (api_found = true → is_active = true →
        (run_published_api api_found is_active req meta exec_result).executed_with =
          some (parse_request_data req meta)) ∧
      parse_request_data req meta =
        parse_request_data { req with method := "GET" } meta := by
  have hstatus :
      (run_published_api api_found is_active req meta exec_result).status = 200 ∨
        (run_published_api api_found is_active req meta exec_result).status = 403 ∨
        (run_published_api api_found is_active req meta exec_result).status = 404 ∨
        (run_published_api api_found is_active req meta exec_result).status = 500 := by
    rcases api_found with _ | _
    · simp [run_published_api]
    · rcases is_active with _ | _
      · simp [run_published_api]
      · rcases exec_result with e | v <;> simp [run_published_api]
  refine ⟨?_, hstatus, ?_, ?_⟩
  · rcases hstatus with h | h | h | h <;> omega
  · intro hf ha
    subst hf
    subst ha
    rcases exec_result with e | v <;> simp [run_published_api]
  · by_cases hm : req.method = "POST" ∨ req.method = "PUT" ∨ req.method = "PATCH"
    · simp [parse_request_data, hm, hct, hbody]
    · simp [parse_request_data, hm]

/-- Witness for the amended C9 at the malformed-body request. -/
theorem C9_amended_witness :
    (run_published_api true true exReq9 exMeta9 (.ok (.vstr "done"))).status ≠ 400 ∧
      ((run_published_api true true exReq9 exMeta9 (.ok (.vstr "done"))).status = 200 ∨
        (run_published_api true true exReq9 exMeta9 (.ok (.vstr "done"))).status = 403 ∨
        (run_published_api true true exReq9 exMeta9 (.ok (.vstr "done"))).status = 404 ∨
        (run_published_api true true exReq9 exMeta9 (.ok (.vstr "done"))).status = 500) ∧
      (true = true → true = true →
        (run_published_api true true exReq9 exMeta9
            (.ok (.vstr "done"))).executed_with =
          some (parse_request_data exReq9 exMeta9)) ∧
      parse_request_data exReq9 exMeta9 =
        parse_request_data { exReq9 with method := "GET" } exMeta9 :=
  C9_amended true true exReq9 exMeta9 (.ok (.vstr "done"))
    "Expecting value: line 1 column 1 (char 0)" rfl (by decide)

end MaxDP
